import Mathlib

/-!
Verification of the CANedge CCP/XCP DAQ configuration compiler
(`utils.py` / `canedge_daq.py`).

The development shallowly embeds the core functions of `CANedgeDAQ`:
`group_signals`, `create_daq_frames_ccp`, `create_daq_frames_xcp`,
`create_transmit_list` and the decode-row (`SG_` line) part of `create_dbc`.

Modelling conventions, stated once here:
* CAN payloads are modelled as lists of byte values (`List Nat`, each < 256).
  The source builds uppercase hex strings; two hex characters correspond to
  one byte, and every concatenation in the source happens at even character
  offsets, so the byte-list view is exact.
* `int.to_bytes(w, order)` is modelled by `toBytes`, which truncates the
  value to `w` bytes. Python instead raises OverflowError on out-of-range
  values; every value serialized by the claims fits, except the CCP command
  counter, whose 1-byte conversion (`ctr_hex`) is modelled exactly, with
  `none` for the out-of-range (raising) case.
* DAQ-list / ODT / entry numbers are stored by the source as hex strings
  (formats 0x%04X and 0x%02X) and re-parsed with `int(_, 16)` at every use;
  the model keeps them as `Nat`, but every `sorted(set(...))` over such
  strings is modelled faithfully as the LEXICOGRAPHIC order of the formatted
  strings (`sortedDedupFmt`, with the width of the format used at that call
  site). That order agrees with numeric order exactly while the values fit
  the field width (DAQ < 0x10000, ODT < 0x100) and diverges beyond it
  (`"0x100"` sorts between `"0x10"` and `"0x11"`), which the decode-table
  claim exercises. The other place where the exact spelling is load-bearing
  -- the CCP capacity check compares the A2L `Id` string with the formatted
  `DAQ_LIST_NUMBER` string -- is also modelled with real strings
  (`pyHexFmt`).
* The event channel configured for a signal (`EventConfigured`) is kept as
  the raw value used for bucketing.
-/

set_option linter.unusedVariables false
set_option maxRecDepth 16384

namespace CanedgeDaq

/-- Byte order from the A2L parameters (`BYTE_ORDER`). -/
inductive ByteOrder where
  | little
  | big
deriving DecidableEq

/-- Model of `v.to_bytes(w, 'big')`: the `w` bytes of `v`, most significant
first (value truncated to `w` bytes, see the header comment). -/
def toBytesBE : Nat → Nat → List Nat
  | 0, _ => []
  | w + 1, v => toBytesBE w (v / 256) ++ [v % 256]

/-- Model of `v.to_bytes(w, byte_order)`. -/
def toBytes (bo : ByteOrder) (w v : Nat) : List Nat :=
  match bo with
  | .big => toBytesBE w v
  | .little => (toBytesBE w v).reverse

/-- Value of one hexadecimal digit character, as accepted by `int(_, 16)`. -/
def hexDigitVal (c : Char) : Option Nat :=
  if '0' ≤ c ∧ c ≤ '9' then some (c.toNat - 48)
  else if 'a' ≤ c ∧ c ≤ 'f' then some (c.toNat - 87)
  else if 'A' ≤ c ∧ c ≤ 'F' then some (c.toNat - 55)
  else none

/-- Model of Python `int(s, 16)`: an optional `0x`/`0X` prefix followed by at
least one hex digit. Python also tolerates surrounding whitespace, a sign and
underscores; such spellings do not occur in the inputs considered here. A
malformed string makes Python raise; the model returns `none`. -/
def parseHex (s : String) : Option Nat :=
  let cs := s.toList
  let cs := if cs.take 2 = ['0', 'x'] ∨ cs.take 2 = ['0', 'X'] then cs.drop 2 else cs
  match cs with
  | [] => none
  | _ => cs.foldlM (fun acc c => (hexDigitVal c).map (fun d => 16 * acc + d)) 0

/-- Uppercase hex digit character for a value < 16. -/
def hexDigitChar (n : Nat) : Char :=
  if n < 10 then Char.ofNat (48 + n) else Char.ofNat (55 + n)

/-- Fuel-driven digit expansion (structural recursion, so concrete values
reduce inside the kernel; the fuel `n + 1` always suffices since each step
divides by 16). -/
def natToHexUpperAux : Nat → Nat → List Char
  | 0, _ => []
  | fuel + 1, n =>
    if n < 16 then [hexDigitChar n]
    else natToHexUpperAux fuel (n / 16) ++ [hexDigitChar (n % 16)]

/-- Uppercase hex digits of `n` (no prefix, minimal width, at least one digit). -/
def natToHexUpper (n : Nat) : List Char :=
  natToHexUpperAux (n + 1) n

/-- Model of the Python format string `f"0x..:0wX.."`: `0x` followed by the
uppercase hex digits of `n`, left-padded with `0` to at least `w` digits. -/
def pyHexFmt (w n : Nat) : String :=
  let ds := natToHexUpper n
  "0x" ++ String.mk (List.replicate (w - ds.length) '0' ++ ds)

/-- Two-uppercase-hex-digit rendering of one byte, as produced by
`value.to_bytes(1, 'big').hex().upper()` in the source (used in frame names). -/
def byteHexStr (n : Nat) : String :=
  let ds := natToHexUpper (n % 256)
  String.mk (List.replicate (2 - ds.length) '0' ++ ds)

/-- Seen-set-accumulating helper for `firstSeen` (structural recursion, so
concrete values reduce inside the kernel). -/
def firstSeenAux (seen : List Nat) : List Nat → List Nat
  | [] => []
  | x :: xs => if x ∈ seen then firstSeenAux seen xs else x :: firstSeenAux (x :: seen) xs

/-- The distinct elements of `l` in first-seen order: the key order of a
Python `dict` / `collections.defaultdict` filled by iterating `l`. -/
def firstSeen (l : List Nat) : List Nat :=
  firstSeenAux [] l

/-- Insert into an ascending list, keeping it ascending (used only as the
claim-side description of ascending numeric (DaqList, Odt) order, to be
compared with the string order the source actually sorts by). -/
def insertSorted (x : Nat) : List Nat → List Nat
  | [] => [x]
  | y :: ys => if x ≤ y then x :: y :: ys else y :: insertSorted x ys

/-- Ascending numeric insertion sort (claim-side, see `insertSorted`). -/
def sortNat (l : List Nat) : List Nat :=
  l.foldr insertSorted []

/-- Python string comparison `a <= b` on the character lists of two strings:
lexicographic by Unicode code point, a proper prefix preceding its
extensions. -/
def charListLe : List Char → List Char → Bool
  | [], _ => true
  | _ :: _, [] => false
  | c :: cs, d :: ds =>
    if c.toNat < d.toNat then true
    else if d.toNat < c.toNat then false
    else charListLe cs ds

/-- Python `<=` on the `0x%0wX`-formatted hex strings of two values: the
order `sorted` uses on `DAQ_LIST_NUMBER` (`w = 4`) and `ODT_NUMBER`
(`w = 2`) strings. -/
def hexLeW (w a b : Nat) : Bool :=
  charListLe (pyHexFmt w a).toList (pyHexFmt w b).toList

/-- Insertion keeping the list ascending in the formatted-string order. -/
def insertSortedW (w x : Nat) : List Nat → List Nat
  | [] => [x]
  | y :: ys => if hexLeW w x y then x :: y :: ys else y :: insertSortedW w x ys

/-- Model of Python `sorted(set(l))` where `l` holds the values of
`0x%0wX`-formatted id strings: the distinct values of `l`, ascending in the
LEXICOGRAPHIC order of their formatted strings (Python sorts the strings,
not the numbers). This coincides with ascending numeric order exactly while
every value fits the field width (`< 16^w`); from `0x100` on, the string
order diverges (`"0x100"` sorts between `"0x10"` and `"0x11"`). -/
def sortedDedupFmt (w : Nat) (l : List Nat) : List Nat :=
  (firstSeen l).foldr (insertSortedW w) []

/-- Most-significant-first digit expansion of `n` to exactly `w` hex digit
characters (the zero-padded positional notation; bridges the formatted
strings with arithmetic in the order lemmas below). -/
def digitsW : Nat → Nat → List Char
  | 0, _ => []
  | w + 1, n => hexDigitChar (n / 16 ^ w) :: digitsW w (n % 16 ^ w)

/-- One filtered A2L measurement signal, as consumed by `group_signals`
(the dict fields actually read by the functions modelled here; `Scale`,
`Offset`, `Unit` and the limits are carried verbatim into the DBC rows and
are kept as the strings the source holds). -/
structure Signal where
  name : String
  eventConfigured : Nat
  ecuAddress : Nat
  length : Nat
  signage : String
  scale : String
  offset : String
  unit : String
  lowerLimit : String
  upperLimit : String
deriving DecidableEq

/-- A signal after `group_signals` stamped it with `DAQ_LIST_NUMBER`,
`ODT_NUMBER` and `ODT_ENTRY_NUMBER` (stored by the source as hex strings of
the counters modelled here as `Nat`). -/
structure GroupedSignal where
  sig : Signal
  daq : Nat
  odt : Nat
  entry : Nat
deriving DecidableEq

/-- One entry of `a2l_params["EVENTS"]` (XCP: channel number and priority). -/
structure EventMeta where
  channel : Nat
  priority : Nat
deriving DecidableEq

/-- One entry of `a2l_params["DAQ_LISTS"]` (CCP QP_BLOB metadata). All three
fields are strings taken verbatim from the A2L file. -/
structure DaqListMeta where
  Id : String
  Length : String
  FirstPID : String
deriving DecidableEq

/-- The A2L parameter dictionary fields read by the functions modelled here.
`MAX_CTO`/`MAX_DTO` are stored by the source as hex strings and always read
through `int(_, 16)`; the model keeps the parsed values. For CCP the loader
always sets `DAQ_LISTS` (possibly empty), matching the membership test
`"DAQ_LISTS" in a2l_params` in `group_signals`. -/
structure A2LParams where
  BYTE_ORDER : ByteOrder
  MAX_CTO : Nat
  MAX_DTO : Nat
  CAN_ID_MASTER : String
  CAN_ID_MASTER_EXTENDED : Bool
  CAN_ID_SLAVE : Nat
  CAN_ID_SLAVE_EXTENDED : Bool
  CAN_ID_DTO : Nat
  ECU_STATION_ADDRESS : Nat
  BYTES_ONLY : Bool
  BAUDRATE : Nat
  CAN_FD_DATA_TRANSFER_BAUDRATE : Option Nat
  EVENTS : List EventMeta
  DAQ_LISTS : List DaqListMeta
deriving DecidableEq

/-- Protocol tag detected from the A2L file. -/
inductive Protocol where
  | ccp
  | xcp
deriving DecidableEq

/-- Fatal exits of `group_signals` (`sys.exit` calls and, for `metaParse`,
the uncaught exception `int(daq_list_entry["Length"], 16)` would raise on a
malformed metadata string). -/
inductive GroupError where
  | emptyInput
  | capacityExceeded (daqId : String) (odtCount : Nat) (maxOdts : Nat)
  | metaParse
deriving DecidableEq

/-- The inner packing loop of `group_signals` over the signals of one event
channel bucket: `odt` / `size` / `ec` are `odt_counter`, `current_odt_size`
and `len(odt_entries)`; `mp` is `max_payload` and `d` the bucket's
`daq_counter` value. -/
def packGo (mp d : Nat) : Nat → Nat → Nat → List Signal → List GroupedSignal
  | _, _, _, [] => []
  | odt, size, ec, s :: rest =>
    if size + s.length > mp then
      ⟨s, d, odt + 1, 0⟩ :: packGo mp d (odt + 1) s.length 1 rest
    else
      ⟨s, d, odt, ec⟩ :: packGo mp d odt (size + s.length) (ec + 1) rest

/-- The outer loop of `group_signals`: one bucket per distinct
`EventConfigured` value in first-seen order, with `daq_counter` starting at
`d` (the bucket of channel `c` is exactly the input sublist with that
channel, which is how `defaultdict(list)` fills it). -/
def packAll (mp : Nat) : Nat → List Nat → List Signal → List GroupedSignal
  | _, [], _ => []
  | d, c :: ks, sigs =>
    packGo mp d 0 0 0 (sigs.filter (fun s => s.eventConfigured == c))
      ++ packAll mp (d + 1) ks sigs

/-- The grouped-signal list `group_signals` builds before its CCP capacity
check (`signals_grouped`). -/
def groupedOf (sigs : List Signal) (p : A2LParams) : List GroupedSignal :=
  packAll (min p.MAX_DTO 64 - 1) 0 (firstSeen (sigs.map (fun s => s.eventConfigured))) sigs

/-- Number of distinct ODT ids used by DAQ list `d` (the size of the Python
set `daq_odt_counts[daq_id]`; the formatted ODT strings are pairwise distinct
exactly when the numbers are, the format being injective). -/
def odtCount (gs : List GroupedSignal) (d : Nat) : Nat :=
  (firstSeen ((gs.filter (fun g => g.daq == d)).map (fun g => g.odt))).length

/-- The CCP capacity check loop of `group_signals`, iterating over the used
DAQ lists in insertion order of `daq_odt_counts` (= first-seen order in
`signals_grouped`). The A2L `Id` string is compared with the formatted
`DAQ_LIST_NUMBER` string (format `0x%04X`) by string equality, exactly as in
the source (`dl["Id"] == daq_id`). -/
def ccpCheckGo (gs : List GroupedSignal) (metas : List DaqListMeta) : List Nat → Option GroupError
  | [] => none
  | d :: ds =>
    match metas.find? (fun m => m.Id == pyHexFmt 4 d) with
    | none => ccpCheckGo gs metas ds
    | some e =>
      match parseHex e.Length with
      | none => some .metaParse
      | some cap =>
        if odtCount gs d > cap then
          some (.capacityExceeded (pyHexFmt 4 d) (odtCount gs d) cap)
        else ccpCheckGo gs metas ds

/-- Model of `CANedgeDAQ.group_signals`. A `.error` result models the
`sys.exit` (no grouping is returned). -/
def group_signals (sigs : List Signal) (p : A2LParams) (prot : Protocol) :
    Except GroupError (List GroupedSignal) :=
  if sigs.isEmpty then .error .emptyInput
  else
    let gs := groupedOf sigs p
    match prot with
    | .xcp => .ok gs
    | .ccp =>
      match ccpCheckGo gs p.DAQ_LISTS (firstSeen (gs.map (fun g => g.daq))) with
      | some e => .error e
      | none => .ok gs

/-- A named command frame (`{"Name": ..., "DATA": ...}`), with the `DATA` hex
string modelled as its byte list. -/
structure Frame where
  name : String
  payload : List Nat
deriving DecidableEq

/-- Body of one CCP command frame: everything except the command counter,
which the source splices in as the second byte (`{ctr_hex(ctr)}` directly
after the opcode in every frame format string). -/
structure FrameBody where
  name : String
  opcode : Nat
  rest : List Nat
deriving DecidableEq

/-- Model of `ctr_hex` (`counter.to_bytes(1, 'big').hex().upper()`): the
counter byte. Python raises OverflowError when the counter exceeds 255;
the model returns `none`. -/
def ctr_hex (counter : Nat) : Option Nat :=
  if counter < 256 then some counter else none

/-- The DAQ-DTO CAN id with bit 31 set for extended ids, as computed at the
top of `create_daq_frames_ccp`. -/
def ccpDtoId (p : A2LParams) : Nat :=
  if p.CAN_ID_SLAVE_EXTENDED then p.CAN_ID_DTO ||| 0x80000000 else p.CAN_ID_DTO

/-- CCP `SET_DAQ_PTR` + `WRITE_DAQ` pairs for one ODT, `bytes_only == False`
branch: one pair per ODT entry. Signal lengths are 1..8 (from the data-type
map), so the `%02X`-formatted length is a single byte. -/
def ccpOdtEntryBodies (bo : ByteOrder) (d o : Nat) (sigs : List GroupedSignal) :
    List FrameBody :=
  (sigs.map (fun g =>
    [⟨"PTR_D" ++ byteHexStr d ++ "_O" ++ byteHexStr o ++ "_E" ++ byteHexStr g.entry,
      0x15, [d % 256, o % 256, g.entry % 256, 0xAA, 0xAA, 0xAA]⟩,
     ⟨"WRITE_DAQ", 0x16,
      [g.sig.length, 0x00] ++ toBytes bo 4 g.sig.ecuAddress⟩])).flatten

/-- CCP `SET_DAQ_PTR` + `WRITE_DAQ` pairs for one ODT, `bytes_only == True`
branch: one pair per byte of each signal, entries renumbered sequentially
(`odt_entry_manual`, threaded here as `ec`) and the ECU address incremented
by one per byte. -/
def ccpBytesOnlyBodies (bo : ByteOrder) (d o : Nat) : Nat → List GroupedSignal → List FrameBody
  | _, [] => []
  | ec, g :: rest =>
    ((List.range g.sig.length).map (fun j =>
      [⟨"PTR_D" ++ byteHexStr d ++ "_O" ++ byteHexStr o ++ "_E" ++ byteHexStr (ec + j),
        0x15, [d % 256, o % 256, (ec + j) % 256, 0xAA, 0xAA, 0xAA]⟩,
       ⟨"WRITE_DAQ", 0x16,
        [0x01, 0x00] ++ toBytes bo 4 (g.sig.ecuAddress + j)⟩])).flatten
      ++ ccpBytesOnlyBodies bo d o (ec + g.sig.length) rest

/-- CCP frames for one DAQ list: `GET_DAQ_SIZE`, then the per-ODT entry
frames in the ODT enumeration order (string order of the `0x%02X` ids). -/
def ccpDaqBodies (p : A2LParams) (gs : List GroupedSignal) (d : Nat) : List FrameBody :=
  let daqSigs := gs.filter (fun g => g.daq == d)
  let odts := sortedDedupFmt 2 (daqSigs.map (fun g => g.odt))
  ⟨"GET_DAQ_SIZE_" ++ byteHexStr d, 0x14, [d % 256, 0xAA] ++ toBytesBE 4 (ccpDtoId p)⟩ ::
  (odts.map (fun o =>
    let odtSigs := daqSigs.filter (fun g => g.odt == o)
    if p.BYTES_ONLY then ccpBytesOnlyBodies p.BYTE_ORDER d o 0 odtSigs
    else ccpOdtEntryBodies p.BYTE_ORDER d o odtSigs)).flatten

/-- CCP `START_STOP` (mode = prepare) frame for one DAQ list. The source
leaves `odt_number` at the value of the last loop iteration, i.e. the ODT
id last in the enumeration order (the numerically largest whenever the ids
are below 0x100); `event_channel` comes from the first grouped
signal of the list. Every DAQ list id of a grouping has at least one signal
and one ODT, so the `getD` defaults are never taken. -/
def ccpStartStopBody (gs : List GroupedSignal) (d : Nat) : FrameBody :=
  let daqSigs := gs.filter (fun g => g.daq == d)
  let odts := sortedDedupFmt 2 (daqSigs.map (fun g => g.odt))
  let lastOdt := odts.getLast?.getD 0
  let evch := ((gs.find? (fun g => g.daq == d)).map (fun g => g.sig.eventConfigured)).getD 0
  ⟨"START_STOP_D" ++ byteHexStr d, 0x06,
   [0x02, d % 256, lastOdt % 256, evch % 256, 0x00, 0x01]⟩

/-- The full CCP frame sequence of `create_daq_frames_ccp`, without the
command counters (every frame format string in the source is the opcode,
then `ctr_hex(ctr)`, then the bytes given here, and `ctr += 1` follows every
append, so the emitted list is this list stamped with consecutive counters
starting at 1 -- see `create_daq_frames_ccp`). -/
def ccpFrameBodies (gs : List GroupedSignal) (p : A2LParams) : List FrameBody :=
  let daqs := sortedDedupFmt 4 (gs.map (fun g => g.daq))
  ⟨"CONNECT", 0x01, toBytes .little 2 p.ECU_STATION_ADDRESS ++ [0xAA, 0xAA, 0xAA, 0xAA]⟩ ::
  ⟨"EXCHANGE_ID", 0x17, [0xAA, 0xAA, 0xAA, 0xAA, 0xAA, 0xAA]⟩ ::
  ((daqs.map (ccpDaqBodies p gs)).flatten
    ++ daqs.map (ccpStartStopBody gs)
    ++ [⟨"START_STOP_ALL", 0x08, [0x01, 0xAA, 0xAA, 0xAA, 0xAA, 0xAA]⟩])

/-- Stamp the frame bodies with consecutive command counters starting at
`c`. A counter that no longer fits one byte makes `ctr_hex` raise in the
source, aborting the whole function: modelled by `none`. -/
def stampCtr : Nat → List FrameBody → Option (List Frame)
  | _, [] => some []
  | c, b :: bs =>
    match ctr_hex c with
    | none => none
    | some cb =>
      match stampCtr (c + 1) bs with
      | none => none
      | some fs => some (⟨b.name, b.opcode :: cb :: b.rest⟩ :: fs)

/-- Model of `CANedgeDAQ.create_daq_frames_ccp`. `none` models the
OverflowError raised by `ctr_hex` once the counter passes 255. -/
def create_daq_frames_ccp (gs : List GroupedSignal) (p : A2LParams) : Option (List Frame) :=
  stampCtr 1 (ccpFrameBodies gs p)

/-- XCP `WRITE_DAQ_MULTIPLE` entry descriptor for one grouped signal:
bit-offset sentinel 0xFF, length, 4-byte address, extension 0x00, pad 0x00
(8 bytes). -/
def xcpDescr (bo : ByteOrder) (g : GroupedSignal) : List Nat :=
  [0xFF, g.sig.length] ++ toBytes bo 4 g.sig.ecuAddress ++ [0x00, 0x00]

/-- Right-pad with zero bytes to `n` bytes and truncate to `n` bytes:
`.ljust(128, "0")[:128]` on the hex string, seen at byte level. -/
def padTrunc (n : Nat) (xs : List Nat) : List Nat :=
  (xs ++ List.replicate (n - xs.length) 0) |>.take n

/-- One `WRITE_DAQ_MULTIPLE` frame from the accumulated descriptor list
`frame_data`: opcode 0xC7, descriptor count, the descriptors, padded to a
fixed 64-byte payload. The count is `len(frame_data)` formatted `%02X`; it
is at most 7 here, hence one byte. -/
def mkWdmFrame (fd : List (List Nat)) : Frame :=
  ⟨"WRITE_DAQ_MULTI", padTrunc 64 ([0xC7, fd.length] ++ fd.flatten)⟩

/-- The `max_cto == 64` loop of `create_daq_frames_xcp` for one ODT: pack
descriptors into `frame_data`, flushing a frame whenever the next descriptor
would push the descriptor bytes past `max_payload_size = 63`, and flush the
remainder after the loop. -/
def wdmGo (bo : ByteOrder) : List (List Nat) → List GroupedSignal → List Frame
  | fd, [] => if fd.isEmpty then [] else [mkWdmFrame fd]
  | fd, g :: rest =>
    let e := xcpDescr bo g
    if fd.flatten.length + e.length > 63 then
      mkWdmFrame fd :: wdmGo bo [e] rest
    else
      wdmGo bo (fd ++ [e]) rest

/-- The per-ODT entry frames of `create_daq_frames_xcp`: the
`WRITE_DAQ_MULTIPLE` batching path when the effective `max_cto` is 64,
otherwise one `WRITE_DAQ` frame per entry. -/
def xcpOdtEntryFrames (p : A2LParams) (odtSigs : List GroupedSignal) : List Frame :=
  if min p.MAX_CTO 64 == 64 then
    wdmGo p.BYTE_ORDER [] odtSigs
  else
    odtSigs.enum.map (fun ie =>
      ⟨"WRITE_DAQ_" ++ pyHexFmt 2 ie.1,
       [0xE1, 0xFF, ie.2.sig.length, 0x00] ++ toBytes p.BYTE_ORDER 4 ie.2.sig.ecuAddress⟩)

/-- Model of `CANedgeDAQ.create_daq_frames_xcp`. -/
def create_daq_frames_xcp (gs : List GroupedSignal) (p : A2LParams) : List Frame :=
  let bo := p.BYTE_ORDER
  let daqs := sortedDedupFmt 4 (gs.map (fun g => g.daq))
  [⟨"CONNECT", [0xFF, 0x00]⟩, ⟨"GET_STATUS", [0xFD]⟩, ⟨"FREE_DAQ", [0xD6]⟩,
   ⟨"AL_DAQ", [0xD5, 0x00] ++ toBytes bo 2 daqs.length⟩]
  ++ daqs.map (fun d =>
      let odts := sortedDedupFmt 2 ((gs.filter (fun g => g.daq == d)).map (fun g => g.odt))
      ⟨"AL_ODT_" ++ pyHexFmt 4 d, [0xD4, 0x00] ++ toBytes bo 2 d ++ [odts.length]⟩)
  ++ (daqs.map (fun d =>
      let odts := sortedDedupFmt 2 ((gs.filter (fun g => g.daq == d)).map (fun g => g.odt))
      odts.map (fun o =>
        let entries := gs.filter (fun g => g.daq == d && g.odt == o)
        ⟨"AL_ODT_ENT_" ++ pyHexFmt 2 o,
         [0xD3, 0x00] ++ toBytes bo 2 d ++ [o % 256, entries.length]⟩))).flatten
  ++ (daqs.map (fun d =>
      let daqSigs := gs.filter (fun g => g.daq == d)
      let odts := sortedDedupFmt 2 (daqSigs.map (fun g => g.odt))
      (odts.map (fun o =>
        let odtSigs := daqSigs.filter (fun g => g.odt == o)
        ⟨"SET_DAQ_PTR", [0xE2, 0x00] ++ toBytes bo 2 d ++ [o % 256, 0x00]⟩
          :: xcpOdtEntryFrames p odtSigs)).flatten)).flatten
  ++ daqs.map (fun d =>
      let evch := ((gs.find? (fun g => g.daq == d)).map (fun g => g.sig.eventConfigured)).getD 0
      let prio := ((p.EVENTS.find? (fun e => e.channel == evch)).map (fun e => e.priority)).getD 0
      ⟨"SET_DAQ_LIST_MOD", [0xE0, 0x00] ++ toBytes bo 2 d ++ toBytes bo 2 evch ++ [0x01, prio]⟩)
  ++ daqs.map (fun d => ⟨"START_STOP_DAQ", [0xDE, 0x02] ++ toBytes bo 2 d⟩)
  ++ [⟨"START_STOP_SYNCH", [0xDD, 0x01]⟩]

/-- The distinct DAQ list ids of a grouping, in the order
`sorted(set(s["DAQ_LIST_NUMBER"] for s in signals_grouped))` enumerates
them: ascending lexicographic order of the `0x%04X` strings. -/
def daqIdsOf (gs : List GroupedSignal) : List Nat :=
  sortedDedupFmt 4 (gs.map (fun g => g.daq))

/-- The distinct ODT ids of one DAQ list, in the enumeration order of the
source: ascending lexicographic order of the `0x%02X` strings. -/
def odtIdsOf (gs : List GroupedSignal) (d : Nat) : List Nat :=
  sortedDedupFmt 2 ((gs.filter (fun g => g.daq == d)).map (fun g => g.odt))

/-- The signals of one ODT, in grouped order. -/
def odtSigsOf (gs : List GroupedSignal) (d o : Nat) : List GroupedSignal :=
  gs.filter (fun g => g.daq == d && g.odt == o)

/-- All (DAQ list, ODT) pairs of a grouping in the order `create_dbc`
visits the ODTs (string order of the formatted ids; ascending numeric
(DaqList, Odt) order whenever the ids fit the field widths). -/
def odtPairs (gs : List GroupedSignal) : List (Nat × Nat) :=
  ((daqIdsOf gs).map (fun d => (odtIdsOf gs d).map (fun o => (d, o)))).flatten

/-- Split a descriptor list into runs of 7: the frame boundaries the
`WRITE_DAQ_MULTIPLE` loop produces for its 8-byte descriptors
(`floor(63 / 8) = 7` descriptors fit the 63 payload bytes left by the
opcode). -/
def chunk7 (l : List (List Nat)) : List (List (List Nat)) :=
  if l.isEmpty then [] else l.take 7 :: chunk7 (l.drop 7)
termination_by l.length
decreasing_by
  rename_i h
  have hl : l.length ≠ 0 := by
    intro h0
    exact h (by simpa [List.isEmpty_iff_length_eq_zero] using h0)
  simp only [List.length_drop]
  omega

/-- One decode-table row (`SG_` line of the DTO message in `create_dbc`):
multiplexor value, DBC start bit, bit length, sign and the scaling fields.
The optional signal-name shortening of the source only rewrites the emitted
name and is not modelled. -/
structure DecodeRow where
  name : String
  mux : Nat
  startBit : Nat
  bitLength : Nat
  sign : Char
  scale : String
  offset : String
  unit : String
  lowerLimit : String
  upperLimit : String
deriving DecidableEq

/-- Rows of one ODT: walk the entries accumulating the bit cursor from 8
(byte 0 is the PID byte); big-endian start bits address the MSB (+7). -/
def dbcRowsOdt (bo : ByteOrder) (pid : Nat) : Nat → List GroupedSignal → List DecodeRow
  | _, [] => []
  | bitStart, g :: rest =>
    ⟨g.sig.name.replace "." "_", pid,
     bitStart + (if bo = .big then 7 else 0),
     g.sig.length * 8,
     (if g.sig.signage = "unsigned" then '+' else '-'),
     g.sig.scale, g.sig.offset, g.sig.unit, g.sig.lowerLimit, g.sig.upperLimit⟩
      :: dbcRowsOdt bo pid (bitStart + g.sig.length * 8) rest

/-- The CCP first-PID reset of `create_dbc`: look up the DAQ-list metadata
entry whose hex-parsed `Id` equals the DAQ list number (first match); when
found, restart the PID counter at its hex-parsed `FirstPID`, otherwise keep
the running counter. Python would raise on an unparsable `Id`/`FirstPID`;
claims about this function assume parsable metadata, making the `getD` and
non-match fallbacks unreachable there. -/
def firstPidOf (p : A2LParams) (pid d : Nat) : Nat :=
  match p.DAQ_LISTS.find? (fun m => parseHex m.Id == some d) with
  | some e => (parseHex e.FirstPID).getD 0
  | none => pid

/-- ODT loop of `create_dbc` for one DAQ list: rows of each ODT in the
enumeration order of `odtIdsOf`, PID counter incremented once per ODT;
returns the rows and the final PID. -/
def dbcOdts (bo : ByteOrder) (gs : List GroupedSignal) (d : Nat) :
    Nat → List Nat → List DecodeRow × Nat
  | pid, [] => ([], pid)
  | pid, o :: os =>
    let rows := dbcRowsOdt bo pid 8 (odtSigsOf gs d o)
    let r := dbcOdts bo gs d (pid + 1) os
    (rows ++ r.1, r.2)

/-- DAQ-list loop of `create_dbc`: DAQ lists in the enumeration order of
`daqIdsOf`, with the CCP first-PID reset at each list boundary. -/
def dbcDaqs (p : A2LParams) (prot : Protocol) (gs : List GroupedSignal) :
    Nat → List Nat → List DecodeRow
  | _, [] => []
  | pid, d :: ds =>
    let pid0 := if prot = .ccp then firstPidOf p pid d else pid
    let r := dbcOdts p.BYTE_ORDER gs d pid0 (odtIdsOf gs d)
    r.1 ++ dbcDaqs p prot gs r.2 ds

/-- The decode-table rows (`SG_` lines after the `DTOPID` multiplexor) of
`CANedgeDAQ.create_dbc`. -/
def create_dbc_rows (gs : List GroupedSignal) (p : A2LParams) (prot : Protocol) :
    List DecodeRow :=
  dbcDaqs p prot gs 0 (daqIdsOf gs)

/-- The `settings` consumed by `create_transmit_list`. -/
structure TxSettings where
  start_delay : Nat
  frame_spacing : Nat
  max_frames : Nat
  max_data_bytes : Nat
deriving DecidableEq

/-- One entry of the CANedge transmit list. -/
structure TransmitEntry where
  name : String
  state : Nat
  id_format : Nat
  frame_format : Nat
  brs : Nat
  log : Nat
  period : Nat
  delay : Nat
  id : String
  data : List Nat
deriving DecidableEq

/-- The two fatal exits of `create_transmit_list` (device limits). -/
inductive TxError where
  | tooManyFrames (count limit : Nat)
  | tooManyBytes (count limit : Nat)
deriving DecidableEq

/-- `a2l_params["CAN_ID_MASTER"].replace("0x", "").upper()`. -/
def masterIdStr (p : A2LParams) : String :=
  (p.CAN_ID_MASTER.replace "0x" "").toUpper

/-- The transmit-list building loop: delays advance by `frame_spacing` per
frame; a frame longer than 8 bytes is marked CAN FD regardless of the
default frame format. -/
def txGo (spacing ffd brs idf : Nat) (idStr : String) : Nat → List Frame → List TransmitEntry
  | _, [] => []
  | delay, f :: fs =>
    ⟨f.name, 1, idf, (if f.payload.length > 8 then 1 else ffd), brs, 1, 0,
     delay, idStr, f.payload⟩
      :: txGo spacing ffd brs idf idStr (delay + spacing) fs

/-- Model of `CANedgeDAQ.create_transmit_list`. Both device-limit checks run
after the list is built and before the output file is opened, so a `.error`
result models `sys.exit` with no file written, not even partially. -/
def create_transmit_list (frames : List Frame) (p : A2LParams) (s : TxSettings) :
    Except TxError (List TransmitEntry) :=
  let fdDiff : Bool := match p.CAN_FD_DATA_TRANSFER_BAUDRATE with
    | some r => r != p.BAUDRATE
    | none => false
  let ffd := if fdDiff then 1 else 0
  let brs := if fdDiff then 1 else 0
  let idf := if p.CAN_ID_MASTER_EXTENDED then 1 else 0
  let l := txGo s.frame_spacing ffd brs idf (masterIdStr p) s.start_delay frames
  let total := (frames.map (fun f => f.payload.length)).sum
  if l.length > s.max_frames then .error (.tooManyFrames l.length s.max_frames)
  else if total > s.max_data_bytes then .error (.tooManyBytes total s.max_data_bytes)
  else .ok l

/-! Concrete inputs used by the witnesses and counterexamples below. -/

/-- First 2-byte unsigned signal of the end-to-end example (event channel 3). -/
def exSig1 : Signal := ⟨"Sig1", 3, 0x1000, 2, "unsigned", "1", "0", "", "0", "65535"⟩

/-- Second 2-byte unsigned signal of the end-to-end example. -/
def exSig2 : Signal := ⟨"Sig2", 3, 0x2000, 2, "unsigned", "1", "0", "", "0", "65535"⟩

/-- Classic-CAN XCP parameters (`max_cto = max_dto = 0x08`, little-endian). -/
def exParams : A2LParams :=
  { BYTE_ORDER := .little, MAX_CTO := 8, MAX_DTO := 8,
    CAN_ID_MASTER := "0x7E0", CAN_ID_MASTER_EXTENDED := false,
    CAN_ID_SLAVE := 0x7E1, CAN_ID_SLAVE_EXTENDED := false,
    CAN_ID_DTO := 0x7E1, ECU_STATION_ADDRESS := 0x39,
    BYTES_ONLY := false, BAUDRATE := 500000, CAN_FD_DATA_TRANSFER_BAUDRATE := none,
    EVENTS := [⟨3, 0⟩], DAQ_LISTS := [] }

/-- The same parameters with big-endian byte order. -/
def exParamsBig : A2LParams := { exParams with BYTE_ORDER := .big }

/-- The grouping of the end-to-end example. -/
def exGrouped : List GroupedSignal := (group_signals [exSig1, exSig2] exParams .xcp).toOption.getD []

/-- An 8-byte signal: legal for `group_signals` itself, though the upstream
filter drops such signals when `MAX_DTO` is 8. -/
def longSig : Signal := ⟨"Long", 1, 0x100, 8, "unsigned", "1", "0", "", "0", "1"⟩

/-- A 4-byte signal on channel 1 (three of these need three ODTs at
`max_payload = 7`). -/
def capSig1 : Signal := ⟨"Cap1", 1, 0x10, 4, "unsigned", "1", "0", "", "0", "1"⟩

/-- Second 4-byte signal on channel 1. -/
def capSig2 : Signal := ⟨"Cap2", 1, 0x20, 4, "unsigned", "1", "0", "", "0", "1"⟩

/-- Third 4-byte signal on channel 1. -/
def capSig3 : Signal := ⟨"Cap3", 1, 0x30, 4, "unsigned", "1", "0", "", "0", "1"⟩

/-- CCP parameters whose DAQ-list metadata declares capacity 2 for DAQ list
0 with the `Id` spelled in the canonical `0x%04X` form the capacity check
compares against. -/
def capParamsCanonical : A2LParams := { exParams with DAQ_LISTS := [⟨"0x0000", "0x02", "0x01"⟩] }

/-- The same metadata but with `Id` spelled `0x0` (hex value 0, as A2L files
commonly write it): numerically the same DAQ list id, but not equal as a
string to the formatted `0x0000`. -/
def capParamsShort : A2LParams := { exParams with DAQ_LISTS := [⟨"0x0", "0x02", "0x01"⟩] }

/-- CCP parameters with a first-PID declaration for DAQ list 0. -/
def pidParams : A2LParams := { exParams with DAQ_LISTS := [⟨"0x0000", "0x10", "0x08"⟩] }

/-- The grouping of the two example signals under CCP. -/
def exGroupedCcp : List GroupedSignal := (group_signals [exSig1, exSig2] pidParams .ccp).toOption.getD []

/-- CAN-FD XCP parameters (`max_cto = max_dto = 64`). -/
def fdParams : A2LParams := { exParams with MAX_CTO := 64, MAX_DTO := 64 }

/-- A 2-byte grouped signal for the `WRITE_DAQ_MULTIPLE` witness. -/
def wdmSig (i : Nat) : GroupedSignal :=
  ⟨⟨"W", 1, 0x100 + 2 * i, 2, "unsigned", "1", "0", "", "0", "1"⟩, 0, 0, i⟩

/-- Eight entries in one ODT: enough to need two `WRITE_DAQ_MULTIPLE` frames. -/
def wdmOdt : List GroupedSignal := (List.range 8).map wdmSig

/-- 126 two-byte signals on one channel: the CCP encoding needs
2 + 1 + 2 * 126 + 1 + 1 = 257 frames, so the command counter passes 255. -/
def manySigs : List Signal :=
  (List.range 126).map (fun i => ⟨"B", 1, 0x1000 + 2 * i, 2, "unsigned", "1", "0", "", "0", "1"⟩)

/-- The grouping of the 126 signals (CCP, empty DAQ-list metadata, so the
capacity check passes). -/
def manyGrouped : List GroupedSignal := (group_signals manySigs exParams .ccp).toOption.getD []

/-- The device limits of `canedge_daq.py` (`settings`). -/
def exSettings : TxSettings := ⟨1000, 10, 224, 4096⟩

/-- Signals on two channels (channel 5 first seen second), for the
order-preservation witnesses. -/
def mixSigs : List Signal :=
  [⟨"M1", 3, 0x10, 2, "unsigned", "1", "0", "", "0", "1"⟩,
   ⟨"M2", 5, 0x20, 4, "unsigned", "1", "0", "", "0", "1"⟩,
   ⟨"M3", 3, 0x30, 4, "unsigned", "1", "0", "", "0", "1"⟩,
   ⟨"M4", 3, 0x40, 4, "unsigned", "1", "0", "", "0", "1"⟩,
   ⟨"M5", 5, 0x50, 1, "unsigned", "1", "0", "", "0", "1"⟩]

/-- The grouping of the mixed-channel signals (XCP). -/
def mixGrouped : List GroupedSignal := (group_signals mixSigs exParams .xcp).toOption.getD []

/-- CCP parameters with first-PID metadata for DAQ lists 0 and 1 (matched
by hex value in `create_dbc`). -/
def mixPidParams : A2LParams :=
  { exParams with DAQ_LISTS := [⟨"0x0", "0x04", "0x08"⟩, ⟨"0x1", "0x02", "0x20"⟩] }

/-- A grouped-signal list whose DAQ list 0 uses ODT ids 16, 17 and 256:
the `0x%02X` strings are `"0x10"`, `"0x11"` and `"0x100"`, and
`"0x100" < "0x11"` lexicographically, so `create_dbc` enumerates ODT 256
between ODTs 16 and 17. -/
def wideOdtGs : List GroupedSignal :=
  [⟨⟨"S16", 1, 0x10, 1, "unsigned", "1", "0", "", "0", "1"⟩, 0, 16, 0⟩,
   ⟨⟨"S17", 1, 0x20, 2, "unsigned", "1", "0", "", "0", "1"⟩, 0, 17, 0⟩,
   ⟨⟨"S256", 1, 0x30, 4, "unsigned", "1", "0", "", "0", "1"⟩, 0, 256, 0⟩]

/-- 257 four-byte signals on one channel: at `max_payload = 7` each needs
its own ODT, so `group_signals` itself assigns ODT ids 0 through 256. -/
def wideOdtSigs : List Signal :=
  (List.range 257).map (fun i => ⟨"R", 1, 0x1000 + 4 * i, 4, "unsigned", "1", "0", "", "0", "1"⟩)

/-! ### Helper lemmas -/

theorem toBytesBE_length (w : Nat) : ∀ v, (toBytesBE w v).length = w := by
  induction w with
  | zero => intro v; rfl
  | succ n ih => intro v; simp [toBytesBE, ih]

theorem toBytes_length (bo : ByteOrder) (w v : Nat) : (toBytes bo w v).length = w := by
  cases bo <;> simp [toBytes, toBytesBE_length]

theorem xcpDescr_length (bo : ByteOrder) (g : GroupedSignal) : (xcpDescr bo g).length = 8 := by
  simp [xcpDescr, toBytes_length]

theorem mem_firstSeenAux : ∀ (l seen : List Nat) (x : Nat),
    x ∈ firstSeenAux seen l ↔ x ∈ l ∧ x ∉ seen := by
  intro l
  induction l with
  | nil => intro seen x; simp [firstSeenAux]
  | cons y ys ih =>
    intro seen x
    simp only [firstSeenAux]
    by_cases hy : y ∈ seen
    · rw [if_pos hy, ih]
      constructor
      · rintro ⟨hx, hs⟩
        exact ⟨List.mem_cons_of_mem _ hx, hs⟩
      · rintro ⟨hx, hs⟩
        rcases List.mem_cons.mp hx with rfl | hx
        · exact absurd hy hs
        · exact ⟨hx, hs⟩
    · rw [if_neg hy]
      constructor
      · intro hmem
        rcases List.mem_cons.mp hmem with rfl | hmem
        · exact ⟨List.mem_cons_self _ _, hy⟩
        · have hh := (ih _ _).mp hmem
          exact ⟨List.mem_cons_of_mem _ hh.1, fun hs => hh.2 (List.mem_cons_of_mem _ hs)⟩
      · rintro ⟨hx, hs⟩
        rcases List.mem_cons.mp hx with rfl | hx
        · exact List.mem_cons_self _ _
        · by_cases hxy : x = y
          · subst hxy; exact List.mem_cons_self _ _
          · refine List.mem_cons_of_mem _ ((ih _ _).mpr ⟨hx, fun hh => ?_⟩)
            rcases List.mem_cons.mp hh with h1 | h1
            · exact hxy h1
            · exact hs h1

theorem mem_firstSeen {x : Nat} {l : List Nat} : x ∈ firstSeen l ↔ x ∈ l := by
  rw [firstSeen, mem_firstSeenAux]
  simp

theorem nodup_firstSeenAux : ∀ (l seen : List Nat), (firstSeenAux seen l).Nodup := by
  intro l
  induction l with
  | nil => intro seen; simp [firstSeenAux]
  | cons y ys ih =>
    intro seen
    simp only [firstSeenAux]
    by_cases hy : y ∈ seen
    · rw [if_pos hy]
      exact ih _
    · rw [if_neg hy]
      refine List.nodup_cons.mpr ⟨?_, ih _⟩
      intro hmem
      exact ((mem_firstSeenAux _ _ _).mp hmem).2 (List.mem_cons_self _ _)

theorem nodup_firstSeen (l : List Nat) : (firstSeen l).Nodup :=
  nodup_firstSeenAux l []

/-! ### Packing lemmas (`group_signals`) -/

theorem packGo_map_sig (mp d : Nat) :
    ∀ (sigs : List Signal) (odt size ec : Nat),
      (packGo mp d odt size ec sigs).map (fun g => g.sig) = sigs := by
  intro sigs
  induction sigs with
  | nil => intro odt size ec; rfl
  | cons s rest ih =>
    intro odt size ec
    by_cases h : size + s.length > mp <;> simp [packGo, h, ih]

theorem packGo_daq (mp d : Nat) :
    ∀ (sigs : List Signal) (odt size ec : Nat) (g : GroupedSignal),
      g ∈ packGo mp d odt size ec sigs → g.daq = d := by
  intro sigs
  induction sigs with
  | nil => intro odt size ec g hg; simp [packGo] at hg
  | cons s rest ih =>
    intro odt size ec g hg
    simp only [packGo] at hg
    split at hg <;> rcases List.mem_cons.mp hg with rfl | hg <;>
      first | rfl | exact ih _ _ _ _ hg

theorem packGo_odt_ge (mp d : Nat) :
    ∀ (sigs : List Signal) (odt size ec : Nat) (g : GroupedSignal),
      g ∈ packGo mp d odt size ec sigs → odt ≤ g.odt := by
  intro sigs
  induction sigs with
  | nil => intro odt size ec g hg; simp [packGo] at hg
  | cons s rest ih =>
    intro odt size ec g hg
    simp only [packGo] at hg
    split at hg
    · rcases List.mem_cons.mp hg with rfl | hg
      · exact Nat.le_succ odt
      · exact Nat.le_of_succ_le (ih _ _ _ _ hg)
    · rcases List.mem_cons.mp hg with rfl | hg
      · exact Nat.le_refl odt
      · exact ih _ _ _ _ hg

theorem packGo_filter_lt (mp d : Nat) (sigs : List Signal) (odt size ec o : Nat)
    (ho : o < odt) :
    (packGo mp d odt size ec sigs).filter (fun g => g.odt == o) = [] := by
  rw [List.filter_eq_nil_iff]
  intro g hg
  have := packGo_odt_ge mp d sigs odt size ec g hg
  simp only [beq_iff_eq]
  omega

theorem packGo_entries (mp d : Nat) :
    ∀ (sigs : List Signal) (odt size ec o : Nat), odt ≤ o →
      ((packGo mp d odt size ec sigs).filter (fun g => g.odt == o)).map (fun g => g.entry)
        = List.range' (if o = odt then ec else 0)
            (((packGo mp d odt size ec sigs).filter (fun g => g.odt == o)).length) := by
  intro sigs
  induction sigs with
  | nil => intro odt size ec o ho; simp [packGo]
  | cons s rest ih =>
    intro odt size ec o ho
    by_cases h : size + s.length > mp
    · simp only [packGo, if_pos h, List.filter_cons, beq_iff_eq]
      by_cases ho1 : o = odt + 1
      · subst ho1
        rw [if_pos rfl, if_neg (by omega : ¬(odt + 1 = odt))]
        have := ih (odt + 1) s.length 1 (odt + 1) (Nat.le_refl _)
        rw [if_pos rfl] at this
        simp only [List.map_cons, List.length_cons, this, List.range'_succ]
      · rw [if_neg (by show ¬(odt + 1 = o); omega : ¬((⟨s, d, odt + 1, 0⟩ : GroupedSignal).odt = o))]
        by_cases ho0 : o = odt
        · subst ho0
          rw [packGo_filter_lt mp d rest (o + 1) s.length 1 o (Nat.lt_succ_self o)]
          simp
        · have := ih (odt + 1) s.length 1 o (by omega)
          rw [if_neg ho1] at this
          rw [this, if_neg ho0]
    · simp only [packGo, if_neg h, List.filter_cons, beq_iff_eq]
      by_cases ho0 : o = odt
      · subst ho0
        rw [if_pos rfl, if_pos rfl]
        have := ih o (size + s.length) (ec + 1) o (Nat.le_refl _)
        rw [if_pos rfl] at this
        simp only [List.map_cons, List.length_cons, this, List.range'_succ]
      · rw [if_neg (by show ¬(odt = o); omega : ¬((⟨s, d, odt, ec⟩ : GroupedSignal).odt = o))]
        have := ih odt (size + s.length) (ec + 1) o ho
        rw [this, if_neg ho0, if_neg ho0]

theorem packGo_sum (mp d : Nat) :
    ∀ (sigs : List Signal) (odt size ec o : Nat),
      (∀ s ∈ sigs, s.length ≤ mp) → size ≤ mp →
      (((packGo mp d odt size ec sigs).filter (fun g => g.odt == o)).map
          (fun g => g.sig.length)).sum
        + (if o = odt then size else 0) ≤ mp := by
  intro sigs
  induction sigs with
  | nil =>
    intro odt size ec o hs hsize
    simp only [packGo, List.filter_nil, List.map_nil, List.sum_nil, Nat.zero_add]
    split <;> omega
  | cons s rest ih =>
    intro odt size ec o hs hsize
    have hslen : s.length ≤ mp := hs s (List.mem_cons_self s rest)
    have hrest : ∀ x ∈ rest, x.length ≤ mp := fun x hx => hs x (List.mem_cons_of_mem s hx)
    by_cases h : size + s.length > mp
    · simp only [packGo, if_pos h, List.filter_cons, beq_iff_eq]
      by_cases ho1 : o = odt + 1
      · subst ho1
        rw [if_pos rfl]
        simp only [List.map_cons, List.sum_cons]
        have := ih (odt + 1) s.length 1 (odt + 1) hrest hslen
        rw [if_pos rfl] at this
        rw [if_neg (by omega : ¬(odt + 1 = odt))]
        omega
      · rw [if_neg (by show ¬(odt + 1 = o); omega : ¬((⟨s, d, odt + 1, 0⟩ : GroupedSignal).odt = o))]
        by_cases ho0 : o = odt
        · subst ho0
          rw [packGo_filter_lt mp d rest (o + 1) s.length 1 o (Nat.lt_succ_self o)]
          simp only [List.map_nil, List.sum_nil, Nat.zero_add]
          split <;> omega
        · have := ih (odt + 1) s.length 1 o hrest hslen
          rw [if_neg ho1] at this
          rw [if_neg ho0]
          omega
    · simp only [packGo, if_neg h, List.filter_cons, beq_iff_eq]
      have hsize2 : size + s.length ≤ mp := by omega
      by_cases ho0 : o = odt
      · subst ho0
        rw [if_pos rfl, if_pos rfl]
        simp only [List.map_cons, List.sum_cons]
        have := ih o (size + s.length) (ec + 1) o hrest hsize2
        rw [if_pos rfl] at this
        omega
      · rw [if_neg (by show ¬(odt = o); omega : ¬((⟨s, d, odt, ec⟩ : GroupedSignal).odt = o))]
        have := ih odt (size + s.length) (ec + 1) o hrest hsize2
        rw [if_neg ho0] at this
        rw [if_neg ho0]
        omega

theorem packAll_daq_ge (mp : Nat) :
    ∀ (keys : List Nat) (d0 : Nat) (sigs : List Signal) (g : GroupedSignal),
      g ∈ packAll mp d0 keys sigs → d0 ≤ g.daq := by
  intro keys
  induction keys with
  | nil => intro d0 sigs g hg; simp [packAll] at hg
  | cons c ks ih =>
    intro d0 sigs g hg
    rcases List.mem_append.mp hg with hg | hg
    · rw [packGo_daq mp d0 _ 0 0 0 g hg]
    · exact Nat.le_of_succ_le (ih (d0 + 1) sigs g hg)

theorem packAll_filter (mp : Nat) :
    ∀ (keys : List Nat) (d0 i : Nat) (sigs : List Signal), d0 ≤ i →
      (packAll mp d0 keys sigs).filter (fun g => g.daq == i)
        = (match keys.get? (i - d0) with
           | some c => packGo mp i 0 0 0 (sigs.filter (fun s => s.eventConfigured == c))
           | none => []) := by
  intro keys
  induction keys with
  | nil => intro d0 i sigs hle; simp [packAll]
  | cons c ks ih =>
    intro d0 i sigs hle
    show (packGo mp d0 0 0 0 _ ++ packAll mp (d0 + 1) ks sigs).filter _ = _
    rw [List.filter_append]
    by_cases hi : i = d0
    · subst hi
      have h1 : (packGo mp i 0 0 0 (sigs.filter (fun s => s.eventConfigured == c))).filter
          (fun g => g.daq == i) = packGo mp i 0 0 0 (sigs.filter (fun s => s.eventConfigured == c)) := by
        rw [List.filter_eq_self]
        intro g hg
        simp [packGo_daq mp i _ 0 0 0 g hg]
      have h2 : (packAll mp (i + 1) ks sigs).filter (fun g => g.daq == i) = [] := by
        rw [List.filter_eq_nil_iff]
        intro g hg
        have := packAll_daq_ge mp ks (i + 1) sigs g hg
        simp only [beq_iff_eq]
        omega
      rw [h1, h2, List.append_nil]
      simp
    · have hlt : d0 < i := by omega
      have h1 : (packGo mp d0 0 0 0 (sigs.filter (fun s => s.eventConfigured == c))).filter
          (fun g => g.daq == i) = [] := by
        rw [List.filter_eq_nil_iff]
        intro g hg
        have := packGo_daq mp d0 _ 0 0 0 g hg
        simp only [beq_iff_eq]
        omega
      rw [h1, List.nil_append, ih (d0 + 1) i sigs hlt]
      have harith : i - d0 = (i - (d0 + 1)) + 1 := by omega
      rw [harith]
      rfl

theorem packAll_map_sig (mp : Nat) :
    ∀ (keys : List Nat) (d0 : Nat) (sigs : List Signal),
      (packAll mp d0 keys sigs).map (fun g => g.sig)
        = (keys.map (fun c => sigs.filter (fun s => s.eventConfigured == c))).flatten := by
  intro keys
  induction keys with
  | nil => intro d0 sigs; rfl
  | cons c ks ih =>
    intro d0 sigs
    show (packGo mp d0 0 0 0 _ ++ packAll mp (d0 + 1) ks sigs).map _ = _
    rw [List.map_append, packGo_map_sig, ih]
    rfl

theorem group_signals_ok {sigs : List Signal} {p : A2LParams} {prot : Protocol}
    {gs : List GroupedSignal} (h : group_signals sigs p prot = .ok gs) :
    gs = groupedOf sigs p := by
  rw [group_signals] at h
  by_cases he : sigs.isEmpty
  · rw [if_pos he] at h
    exact Except.noConfusion h
  · rw [if_neg he] at h
    cases prot with
    | xcp => exact (Except.ok.injEq _ _ ▸ h).symm
    | ccp =>
      dsimp only at h
      split at h
      · exact Except.noConfusion h
      · exact (Except.ok.injEq _ _ ▸ h).symm

theorem count_bucket (a : Signal) (c : Nat) (sigs : List Signal) :
    List.count a (sigs.filter (fun s => s.eventConfigured == c))
      = if a.eventConfigured = c then List.count a sigs else 0 := by
  by_cases hc : a.eventConfigured = c
  · rw [if_pos hc]
    exact List.count_filter (by simp [hc])
  · rw [if_neg hc, List.count_eq_zero]
    intro hmem
    exact hc (by simpa using (List.mem_filter.mp hmem).2)

theorem sum_count_buckets (a : Signal) (sigs : List Signal) :
    ∀ (keys : List Nat), keys.Nodup →
      ((keys.map (fun c => List.count a (sigs.filter (fun s => s.eventConfigured == c)))).sum)
        = if a.eventConfigured ∈ keys then List.count a sigs else 0 := by
  intro keys
  induction keys with
  | nil => intro _; simp
  | cons c ks ih =>
    intro hnd
    obtain ⟨hc, hks⟩ := List.nodup_cons.mp hnd
    rw [List.map_cons, List.sum_cons, count_bucket, ih hks]
    by_cases hac : a.eventConfigured = c
    · subst hac
      rw [if_pos rfl, if_pos (List.mem_cons_self _ _), if_neg hc]
      exact Nat.add_zero _
    · rw [if_neg hac]
      by_cases hmem : a.eventConfigured ∈ ks
      · rw [if_pos hmem, if_pos (List.mem_cons_of_mem _ hmem), Nat.zero_add]
      · rw [if_neg hmem, if_neg (by simp [hac, hmem])]

theorem buckets_perm (sigs : List Signal) :
    ((firstSeen (sigs.map (fun s => s.eventConfigured))).map
        (fun c => sigs.filter (fun s => s.eventConfigured == c))).flatten.Perm sigs := by
  rw [List.perm_iff_count]
  intro a
  rw [List.count_flatten, List.map_map]
  have : ((firstSeen (sigs.map (fun s => s.eventConfigured))).map
      (List.count a ∘ fun c => sigs.filter (fun s => s.eventConfigured == c))).sum
      = ((firstSeen (sigs.map (fun s => s.eventConfigured))).map
        (fun c => List.count a (sigs.filter (fun s => s.eventConfigured == c)))).sum := rfl
  rw [this, sum_count_buckets a sigs _ (nodup_firstSeen _)]
  by_cases ha : a ∈ sigs
  · rw [if_pos (mem_firstSeen.mpr (List.mem_map.mpr ⟨a, ha, rfl⟩))]
  · rw [List.count_eq_zero.mpr ha]
    split <;> rfl

theorem filter_daq_odt (gs : List GroupedSignal) (d o : Nat) :
    gs.filter (fun g => g.daq == d && g.odt == o)
      = (gs.filter (fun g => g.daq == d)).filter (fun g => g.odt == o) := by
  rw [List.filter_filter]
  exact List.filter_congr (fun g _ => Bool.and_comm _ _)

/-! ### Claim theorems about `group_signals` -/

/-- C2 counterexample: `group_signals` is given one non-empty signal list
(a single 8-byte signal with `max_dto = 8`, which the upstream filter would
have dropped but `group_signals` accepts) and produces an ODT whose summed
`length_bytes` is 8, exceeding `max_dto - 1 = 7`: the signal is appended to
a freshly opened ODT even though its own length exceeds the bound, so the
claimed invariant fails as stated for arbitrary non-empty inputs. -/
theorem c2_counterexample :
    group_signals [longSig] exParams .xcp = .ok [⟨longSig, 0, 1, 0⟩]
    ∧ (((([⟨longSig, 0, 1, 0⟩] : List GroupedSignal).filter
          (fun g => g.daq == 0 && g.odt == 1)).map (fun g => g.sig.length)).sum) = 8
    ∧ min exParams.MAX_DTO 64 - 1 = 7 := by
  exact ⟨rfl, by decide, by decide⟩

/-- C2 (amended): for every non-empty input signal list in which every
signal's `length_bytes` is at most `max_dto - 1` (which the upstream filter
guarantees for the data-type lengths 1/2/4/8), every ODT produced by
`group_signals` has summed member `length_bytes` at most
`max_dto - 1`, where `max_dto = min(MAX_DTO, 64)`. -/
theorem c2_packing_bound (sigs : List Signal) (p : A2LParams) (prot : Protocol)
    (gs : List GroupedSignal) (h : group_signals sigs p prot = .ok gs)
    (hlen : ∀ s ∈ sigs, s.length ≤ min p.MAX_DTO 64 - 1) (d o : Nat) :
    ((gs.filter (fun g => g.daq == d && g.odt == o)).map (fun g => g.sig.length)).sum
      ≤ min p.MAX_DTO 64 - 1 := by
  obtain rfl : gs = groupedOf sigs p := group_signals_ok h
  rw [filter_daq_odt, groupedOf, packAll_filter _ _ 0 d sigs (Nat.zero_le d)]
  simp only [Nat.sub_zero]
  cases hget : (firstSeen (sigs.map (fun s => s.eventConfigured))).get? d with
  | none => simp [hget]
  | some c =>
    simp only [hget]
    have hb : ∀ s ∈ sigs.filter (fun s => s.eventConfigured == c),
        s.length ≤ min p.MAX_DTO 64 - 1 :=
      fun s hs => hlen s (List.mem_filter.mp hs).1
    have hsum := packGo_sum (min p.MAX_DTO 64 - 1) d
      (sigs.filter (fun s => s.eventConfigured == c)) 0 0 0 o hb (Nat.zero_le _)
    revert hsum
    split <;> (intro hsum; omega)

/-- Witness for C2 (amended) at a concrete mixed-channel input. -/
theorem c2_packing_bound_witness :
    ((mixGrouped.filter (fun g => g.daq == 0 && g.odt == 0)).map
        (fun g => g.sig.length)).sum ≤ min exParams.MAX_DTO 64 - 1 :=
  c2_packing_bound mixSigs exParams .xcp mixGrouped rfl (by decide) 0 0

/-- C9: the grouped output restricted to DAQ list `d` equals the input list
restricted to the `d`-th first-seen event channel, in the same relative
order (packing never reorders signals, and channel buckets become DAQ lists
in first-seen order). -/
theorem c9_order_preservation (sigs : List Signal) (p : A2LParams) (prot : Protocol)
    (gs : List GroupedSignal) (h : group_signals sigs p prot = .ok gs) (d : Nat) :
    (gs.filter (fun g => g.daq == d)).map (fun g => g.sig)
      = (match (firstSeen (sigs.map (fun s => s.eventConfigured))).get? d with
         | some c => sigs.filter (fun s => s.eventConfigured == c)
         | none => []) := by
  obtain rfl : gs = groupedOf sigs p := group_signals_ok h
  rw [groupedOf, packAll_filter _ _ 0 d sigs (Nat.zero_le d)]
  simp only [Nat.sub_zero]
  cases hget : (firstSeen (sigs.map (fun s => s.eventConfigured))).get? d with
  | none => simp [hget]
  | some c =>
    simp only [hget]
    exact packGo_map_sig _ _ _ 0 0 0

/-- Witness for C9 at a concrete mixed-channel input (second DAQ list). -/
theorem c9_order_preservation_witness :
    (mixGrouped.filter (fun g => g.daq == 1)).map (fun g => g.sig)
      = (match (firstSeen (mixSigs.map (fun s => s.eventConfigured))).get? 1 with
         | some c => mixSigs.filter (fun s => s.eventConfigured == c)
         | none => []) :=
  c9_order_preservation mixSigs exParams .xcp mixGrouped rfl 1

/-- C10: the grouped output is a permutation of the input (each signal kept
exactly once, its payload unchanged, only the three assignment fields
added), and within each ODT the entry numbers are consecutive from 0 in
output order. -/
theorem c10_grouping_permutation (sigs : List Signal) (p : A2LParams) (prot : Protocol)
    (gs : List GroupedSignal) (h : group_signals sigs p prot = .ok gs) :
    (gs.map (fun g => g.sig)).Perm sigs
    ∧ ∀ d o, (gs.filter (fun g => g.daq == d && g.odt == o)).map (fun g => g.entry)
        = List.range ((gs.filter (fun g => g.daq == d && g.odt == o)).length) := by
  obtain rfl : gs = groupedOf sigs p := group_signals_ok h
  constructor
  · rw [groupedOf, packAll_map_sig]
    exact buckets_perm sigs
  · intro d o
    rw [filter_daq_odt, groupedOf, packAll_filter _ _ 0 d sigs (Nat.zero_le d)]
    simp only [Nat.sub_zero]
    cases hget : (firstSeen (sigs.map (fun s => s.eventConfigured))).get? d with
    | none => simp [hget]
    | some c =>
      simp only [hget]
      have hent := packGo_entries (min p.MAX_DTO 64 - 1) d
        (sigs.filter (fun s => s.eventConfigured == c)) 0 0 0 o (Nat.zero_le o)
      rw [List.range_eq_range']
      rcases Nat.eq_zero_or_pos o with rfl | hpos
      · rw [if_pos rfl] at hent
        exact hent
      · rw [if_neg (by omega)] at hent
        exact hent

theorem ccpCheckGo_error (gs : List GroupedSignal) (metas : List DaqListMeta)
    (hparse : ∀ m ∈ metas, (parseHex m.Length).isSome) :
    ∀ (ds : List Nat),
      (∃ d ∈ ds, ∃ e, metas.find? (fun m => m.Id == pyHexFmt 4 d) = some e
          ∧ ∃ cap, parseHex e.Length = some cap ∧ odtCount gs d > cap) →
      ∃ d cap, ccpCheckGo gs metas ds
          = some (.capacityExceeded (pyHexFmt 4 d) (odtCount gs d) cap)
        ∧ d ∈ ds
        ∧ (∃ e, metas.find? (fun m => m.Id == pyHexFmt 4 d) = some e
            ∧ parseHex e.Length = some cap)
        ∧ odtCount gs d > cap := by
  intro ds
  induction ds with
  | nil =>
    rintro ⟨d, hd, _⟩
    simp at hd
  | cons d0 ds ih =>
    rintro ⟨d, hd, e, hfind, cap, hcap, hgt⟩
    simp only [ccpCheckGo]
    cases hf0 : metas.find? (fun m => m.Id == pyHexFmt 4 d0) with
    | none =>
      simp only [hf0]
      rcases List.mem_cons.mp hd with rfl | hd2
      · rw [hfind] at hf0
        exact Option.noConfusion hf0
      · obtain ⟨d1, cap1, h1, h2, h3, h4⟩ := ih ⟨d, hd2, e, hfind, cap, hcap, hgt⟩
        exact ⟨d1, cap1, h1, List.mem_cons_of_mem _ h2, h3, h4⟩
    | some e0 =>
      simp only [hf0]
      cases hp0 : parseHex e0.Length with
      | none =>
        have hps := hparse e0 (List.mem_of_find?_eq_some hf0)
        rw [hp0] at hps
        exact absurd hps (by simp)
      | some cap0 =>
        simp only [hp0]
        by_cases hcnt : odtCount gs d0 > cap0
        · rw [if_pos hcnt]
          exact ⟨d0, cap0, rfl, List.mem_cons_self _ _, ⟨e0, hf0, hp0⟩, hcnt⟩
        · rw [if_neg hcnt]
          rcases List.mem_cons.mp hd with rfl | hd2
          · rw [hfind] at hf0
            injection hf0 with he
            subst he
            rw [hcap] at hp0
            injection hp0 with hc
            subst hc
            exact absurd hgt hcnt
          · obtain ⟨d1, cap1, h1, h2, h3, h4⟩ := ih ⟨d, hd2, e, hfind, cap, hcap, hgt⟩
            exact ⟨d1, cap1, h1, List.mem_cons_of_mem _ h2, h3, h4⟩

/-- C4 counterexample: the grouping needs 3 ODTs on DAQ list 0 whose
metadata declares capacity 2 (`Length = "0x02"`), but because the `Id`
string is spelled `"0x0"` (hex value 0, the common A2L spelling) rather
than the formatted `"0x0000"` the string-equality lookup of the capacity
check finds no entry, and `group_signals` succeeds and returns the full
grouping instead of failing fatally. -/
theorem c4_counterexample :
    capParamsShort.DAQ_LISTS = [⟨"0x0", "0x02", "0x01"⟩]
    ∧ parseHex "0x0" = some 0
    ∧ parseHex "0x02" = some 2
    ∧ group_signals [capSig1, capSig2, capSig3] capParamsShort .ccp
        = .ok [⟨capSig1, 0, 0, 0⟩, ⟨capSig2, 0, 1, 0⟩, ⟨capSig3, 0, 2, 0⟩]
    ∧ odtCount [⟨capSig1, 0, 0, 0⟩, ⟨capSig2, 0, 1, 0⟩, ⟨capSig3, 0, 2, 0⟩] 0 = 3 := by
  exact ⟨by decide, by decide, by decide, rfl, by decide⟩

/-- C4 (amended): the CCP capacity check matches metadata by string
equality of the A2L `Id` against the DAQ list number formatted `0x%04X`.
For every non-empty CCP input whose grouping has a DAQ list `d` with a
matching metadata entry (first match, parsable `Length`) whose capacity is
below the number of distinct ODT ids used by `d`, `group_signals`
terminates fatally with `capacityExceeded` carrying the formatted DAQ list
id, the used ODT count and the capacity limit, and returns no grouping.
DAQ lists whose metadata `Id` is spelled differently are not matched and
the check passes silently for them. -/
theorem c4_capacity_fatal (sigs : List Signal) (p : A2LParams)
    (hne : sigs ≠ [])
    (hparse : ∀ m ∈ p.DAQ_LISTS, (parseHex m.Length).isSome)
    (hex : ∃ d ∈ firstSeen ((groupedOf sigs p).map (fun g => g.daq)),
        ∃ e, p.DAQ_LISTS.find? (fun m => m.Id == pyHexFmt 4 d) = some e
          ∧ ∃ cap, parseHex e.Length = some cap
            ∧ odtCount (groupedOf sigs p) d > cap) :
    ∃ d cap, group_signals sigs p .ccp
        = .error (.capacityExceeded (pyHexFmt 4 d) (odtCount (groupedOf sigs p) d) cap)
      ∧ odtCount (groupedOf sigs p) d > cap
      ∧ ∃ e, p.DAQ_LISTS.find? (fun m => m.Id == pyHexFmt 4 d) = some e
          ∧ parseHex e.Length = some cap := by
  obtain ⟨d, cap, h1, h2, h3, h4⟩ :=
    ccpCheckGo_error (groupedOf sigs p) p.DAQ_LISTS hparse _ hex
  refine ⟨d, cap, ?_, h4, h3⟩
  rw [group_signals, if_neg (by simpa using hne)]
  dsimp only
  rw [h1]

/-- Witness for C4 (amended): canonical `Id` spelling `"0x0000"`, capacity
2, 3 ODTs used. -/
theorem c4_capacity_fatal_witness :
    ∃ d cap, group_signals [capSig1, capSig2, capSig3] capParamsCanonical .ccp
        = .error (.capacityExceeded (pyHexFmt 4 d)
            (odtCount (groupedOf [capSig1, capSig2, capSig3] capParamsCanonical) d) cap)
      ∧ odtCount (groupedOf [capSig1, capSig2, capSig3] capParamsCanonical) d > cap
      ∧ ∃ e, capParamsCanonical.DAQ_LISTS.find? (fun m => m.Id == pyHexFmt 4 d) = some e
          ∧ parseHex e.Length = some cap :=
  c4_capacity_fatal [capSig1, capSig2, capSig3] capParamsCanonical
    (by decide) (by decide)
    ⟨0, by decide, ⟨"0x0000", "0x02", "0x01"⟩, by decide, 2, by decide, by decide⟩

/-! ### Claim theorems about the CCP command counter -/

theorem stampCtr_ok : ∀ (bs : List FrameBody) (c : Nat), c + bs.length ≤ 256 →
    ∃ fs, stampCtr c bs = some fs ∧ fs.length = bs.length
      ∧ ∀ i : Fin fs.length, ((fs.get i).payload).get? 1 = some (c + i.val) := by
  intro bs
  induction bs with
  | nil =>
    intro c h
    exact ⟨[], rfl, rfl, fun i => absurd i.isLt (by simp)⟩
  | cons b bs ih =>
    intro c h
    have hlen : c + (bs.length + 1) ≤ 256 := by simpa using h
    have hc : c < 256 := by omega
    obtain ⟨fs, h1, h2, h3⟩ := ih (c + 1) (by omega)
    refine ⟨⟨b.name, b.opcode :: c :: b.rest⟩ :: fs, ?_, by simp [h2], ?_⟩
    · simp only [stampCtr, ctr_hex, if_pos hc, h1]
    · intro i
      rcases i with ⟨iv, hlt⟩
      cases iv with
      | zero => simp
      | succ j =>
        have hj : j < fs.length := by simpa using hlt
        rw [List.get_cons_succ]
        have := h3 ⟨j, hj⟩
        rw [this]
        have : c + 1 + j = c + (j + 1) := by omega
        rw [this]

theorem stampCtr_none : ∀ (bs : List FrameBody) (c : Nat),
    bs ≠ [] → c + bs.length > 256 → stampCtr c bs = none := by
  intro bs
  induction bs with
  | nil => intro c h _; exact absurd rfl h
  | cons b bs ih =>
    intro c _ hgt
    by_cases hc : c < 256
    · have hbs : bs ≠ [] := by
        intro he
        subst he
        simp at hgt
        omega
      have hrec : stampCtr (c + 1) bs = none := by
        apply ih (c + 1) hbs
        simp at hgt
        omega
      simp only [stampCtr, ctr_hex, if_pos hc, hrec]
    · simp only [stampCtr, ctr_hex, if_neg hc]

/-- C7: for every CCP encoding of at most 255 frames, the encoder succeeds
and the second payload byte (the command counter) of the i-th emitted frame
equals i + 1: the counter starts at 1 on `CONNECT` and increments by exactly
one per frame, across all frame kinds. -/
theorem c7_ccp_counter (gs : List GroupedSignal) (p : A2LParams)
    (h : (ccpFrameBodies gs p).length ≤ 255) :
    ∃ fs, create_daq_frames_ccp gs p = some fs
      ∧ fs.length = (ccpFrameBodies gs p).length
      ∧ ∀ i : Fin fs.length, ((fs.get i).payload).get? 1 = some (i.val + 1) := by
  obtain ⟨fs, h1, h2, h3⟩ := stampCtr_ok (ccpFrameBodies gs p) 1 (by omega)
  exact ⟨fs, h1, h2, fun i => by rw [h3 i, Nat.add_comm]⟩

/-- Witness for C7 at the two-signal CCP example (9 frames). -/
theorem c7_ccp_counter_witness :
    ∃ fs, create_daq_frames_ccp exGroupedCcp pidParams = some fs
      ∧ fs.length = (ccpFrameBodies exGroupedCcp pidParams).length
      ∧ ∀ i : Fin fs.length, ((fs.get i).payload).get? 1 = some (i.val + 1) :=
  c7_ccp_counter exGroupedCcp pidParams (by decide)

/-- C8 counterexample: a CCP grouping of 126 two-byte signals needs 257
frames (`> 255`); `create_daq_frames_ccp` does not succeed with a wrapped
counter -- it fails (the 1-byte counter conversion raises OverflowError in
the source, modelled as `none`). -/
theorem c8_counterexample :
    group_signals manySigs exParams .ccp = .ok manyGrouped
    ∧ (ccpFrameBodies manyGrouped exParams).length = 257
    ∧ create_daq_frames_ccp manyGrouped exParams = none := by
  exact ⟨rfl, by decide, rfl⟩

/-- C8 (amended): for every CCP grouping whose encoding requires more than
255 frames, `create_daq_frames_ccp` fails -- the 1-byte command counter
conversion raises rather than wrapping modulo 256, and no frame list is
produced. -/
theorem c8_counter_overflow (gs : List GroupedSignal) (p : A2LParams)
    (h : (ccpFrameBodies gs p).length > 255) :
    create_daq_frames_ccp gs p = none := by
  have hne : ccpFrameBodies gs p ≠ [] := by
    intro he
    rw [he] at h
    simp at h
  exact stampCtr_none _ 1 hne (by omega)

/-- Witness for C8 (amended) at the 257-frame grouping. -/
theorem c8_counter_overflow_witness :
    create_daq_frames_ccp manyGrouped exParams = none :=
  c8_counter_overflow manyGrouped exParams (by decide)

/-! ### Claim theorems about the XCP `WRITE_DAQ_MULTIPLE` batching -/

theorem flatten_length_all8 : ∀ (fd : List (List Nat)),
    (∀ e ∈ fd, e.length = 8) → fd.flatten.length = 8 * fd.length := by
  intro fd
  induction fd with
  | nil => intro _; rfl
  | cons e fs ih =>
    intro h
    simp only [List.flatten_cons, List.length_append, List.length_cons]
    rw [h e (List.mem_cons_self _ _), ih (fun x hx => h x (List.mem_cons_of_mem _ hx))]
    ring

theorem chunk7_flatten_aux : ∀ (n : Nat) (l : List (List Nat)),
    l.length ≤ n → (chunk7 l).flatten = l := by
  intro n
  induction n with
  | zero =>
    intro l hl
    have he : l = [] := List.eq_nil_of_length_eq_zero (Nat.le_zero.mp hl)
    subst he
    rw [chunk7]
    simp
  | succ n ih =>
    intro l hl
    rw [chunk7]
    by_cases he : l.isEmpty
    · rw [if_pos he]
      rw [List.isEmpty_iff] at he
      simp [he]
    · rw [if_neg he]
      have hlen : 1 ≤ l.length := by
        cases l with
        | nil => exact absurd rfl he
        | cons a as => simp
      simp only [List.flatten_cons]
      rw [ih (l.drop 7) (by simp only [List.length_drop]; omega), List.take_append_drop]

theorem chunk7_flatten (l : List (List Nat)) : (chunk7 l).flatten = l :=
  chunk7_flatten_aux l.length l (Nat.le_refl _)

theorem chunk7_mem_aux : ∀ (n : Nat) (l : List (List Nat)), l.length ≤ n →
    ∀ c ∈ chunk7 l, (1 ≤ c.length ∧ c.length ≤ 7) ∧ ∀ e ∈ c, e ∈ l := by
  intro n
  induction n with
  | zero =>
    intro l hl c hc
    have he : l = [] := List.eq_nil_of_length_eq_zero (Nat.le_zero.mp hl)
    subst he
    rw [chunk7] at hc
    simp at hc
  | succ n ih =>
    intro l hl c hc
    rw [chunk7] at hc
    by_cases he : l.isEmpty
    · rw [if_pos he] at hc
      simp at hc
    · rw [if_neg he] at hc
      have hlen : 1 ≤ l.length := by
        cases l with
        | nil => exact absurd rfl he
        | cons a as => simp
      rcases List.mem_cons.mp hc with rfl | hc
      · refine ⟨⟨?_, ?_⟩, fun e hx => List.take_subset 7 l hx⟩
        · simp only [List.length_take]
          omega
        · simp only [List.length_take]
          omega
      · obtain ⟨hb, hmem⟩ := ih (l.drop 7) (by simp only [List.length_drop]; omega) c hc
        exact ⟨hb, fun e hx => List.drop_subset 7 l (hmem e hx)⟩

theorem chunk7_mem (l : List (List Nat)) :
    ∀ c ∈ chunk7 l, (1 ≤ c.length ∧ c.length ≤ 7) ∧ ∀ e ∈ c, e ∈ l :=
  chunk7_mem_aux l.length l (Nat.le_refl _)

theorem padTrunc_cons (n : Nat) (a : Nat) (xs : List Nat) :
    padTrunc (n + 1) (a :: xs) = a :: padTrunc n xs := by
  simp only [padTrunc, List.length_cons, List.cons_append]
  have harith : n + 1 - (xs.length + 1) = n - xs.length := by omega
  rw [harith, List.take_succ_cons]

theorem padTrunc_length (n : Nat) (xs : List Nat) (h : xs.length ≤ n) :
    (padTrunc n xs).length = n := by
  simp only [padTrunc, List.length_take, List.length_append, List.length_replicate]
  omega

theorem mkWdmFrame_facts (c : List (List Nat)) (h7 : c.length ≤ 7)
    (h8 : ∀ e ∈ c, e.length = 8) :
    (mkWdmFrame c).payload.length = 64
    ∧ (mkWdmFrame c).payload.get? 0 = some 0xC7
    ∧ (mkWdmFrame c).payload.get? 1 = some c.length
    ∧ ((mkWdmFrame c).payload.drop 2).take (8 * c.length) = c.flatten := by
  have hfl : c.flatten.length = 8 * c.length := flatten_length_all8 c h8
  have hpay : (mkWdmFrame c).payload
      = 0xC7 :: c.length :: padTrunc 62 c.flatten := by
    show padTrunc 64 (0xC7 :: c.length :: c.flatten) = _
    rw [padTrunc_cons, padTrunc_cons]
  refine ⟨?_, ?_, ?_, ?_⟩
  · rw [hpay]
    simp only [List.length_cons, padTrunc_length 62 c.flatten (by omega)]
  · rw [hpay]; rfl
  · rw [hpay]; rfl
  · rw [hpay]
    show (padTrunc 62 c.flatten).take (8 * c.length) = c.flatten
    rw [padTrunc, List.take_take]
    have hmin : 8 * c.length ⊓ 62 = 8 * c.length := by
      simp only [Nat.min_def]
      split <;> omega
    rw [hmin, ← hfl, List.take_left]

theorem wdmGo_eq_chunk (bo : ByteOrder) :
    ∀ (sigs : List GroupedSignal) (fd : List (List Nat)),
      fd.length ≤ 7 → (∀ e ∈ fd, e.length = 8) →
      wdmGo bo fd sigs = (chunk7 (fd ++ sigs.map (xcpDescr bo))).map mkWdmFrame := by
  intro sigs
  induction sigs with
  | nil =>
    intro fd h7 h8
    simp only [List.map_nil, List.append_nil, wdmGo]
    by_cases he : fd.isEmpty
    · rw [if_pos he]
      rw [List.isEmpty_iff] at he
      subst he
      rw [chunk7]
      simp
    · rw [if_neg he]
      rw [chunk7, if_neg he, List.take_of_length_le h7, List.drop_eq_nil_of_le h7,
        chunk7]
      simp
  | cons g rest ih =>
    intro fd h7 h8
    have h8g : (xcpDescr bo g).length = 8 := xcpDescr_length bo g
    have hfl : fd.flatten.length = 8 * fd.length := flatten_length_all8 fd h8
    simp only [wdmGo]
    by_cases hc : fd.length = 7
    · have hcond : fd.flatten.length + (xcpDescr bo g).length > 63 := by
        rw [hfl, h8g, hc]
        omega
      rw [if_pos hcond]
      rw [ih [xcpDescr bo g] (by simp) (by simpa using h8g)]
      have hne : (fd ++ (g :: rest).map (xcpDescr bo)).isEmpty = false := by
        cases fd with
        | nil => simp at hc
        | cons a as => rfl
      rw [List.map_cons]
      conv_rhs => rw [chunk7]
      rw [if_neg (by simp [hne])]
      have htake : (fd ++ xcpDescr bo g :: rest.map (xcpDescr bo)).take 7 = fd := by
        rw [← hc]
        exact List.take_left fd _
      have hdrop : (fd ++ xcpDescr bo g :: rest.map (xcpDescr bo)).drop 7
          = xcpDescr bo g :: rest.map (xcpDescr bo) := by
        rw [← hc]
        exact List.drop_left fd _
      rw [htake, hdrop, List.map_cons]
      rfl
    · have hcond : ¬(fd.flatten.length + (xcpDescr bo g).length > 63) := by
        rw [hfl, h8g]
        omega
      rw [if_neg hcond]
      rw [ih (fd ++ [xcpDescr bo g])
        (by simp only [List.length_append, List.length_cons, List.length_nil]; omega)
        (by
          intro e hx
          rcases List.mem_append.mp hx with hx | hx
          · exact h8 e hx
          · rw [List.mem_singleton.mp hx]
            exact h8g)]
      rw [List.map_cons, List.append_assoc, List.singleton_append]

/-- C5: with `max_cto = 64`, each ODT's entries are emitted as one or more
`WRITE_DAQ_MULTIPLE` frames: the descriptor list is cut into runs of at
most 7 eight-byte descriptors (a new frame whenever the next descriptor
would exceed the 63 descriptor bytes), nothing is dropped or duplicated,
and every frame is 64 bytes, starts with opcode 0xC7, carries its
descriptor count in its second byte and its descriptors right after. -/
theorem c5_wdm_batching (p : A2LParams) (h64 : min p.MAX_CTO 64 = 64)
    (odtSigs : List GroupedSignal) (hne : odtSigs ≠ []) :
    xcpOdtEntryFrames p odtSigs
        = (chunk7 (odtSigs.map (xcpDescr p.BYTE_ORDER))).map mkWdmFrame
    ∧ (chunk7 (odtSigs.map (xcpDescr p.BYTE_ORDER))).flatten
        = odtSigs.map (xcpDescr p.BYTE_ORDER)
    ∧ xcpOdtEntryFrames p odtSigs ≠ []
    ∧ ∀ c ∈ chunk7 (odtSigs.map (xcpDescr p.BYTE_ORDER)),
        (1 ≤ c.length ∧ c.length ≤ 7)
        ∧ (mkWdmFrame c).payload.length = 64
        ∧ (mkWdmFrame c).payload.get? 0 = some 0xC7
        ∧ (mkWdmFrame c).payload.get? 1 = some c.length
        ∧ ((mkWdmFrame c).payload.drop 2).take (8 * c.length) = c.flatten := by
  have hall : ∀ e ∈ odtSigs.map (xcpDescr p.BYTE_ORDER), e.length = 8 := by
    intro e he
    obtain ⟨g, _, rfl⟩ := List.mem_map.mp he
    exact xcpDescr_length _ g
  have hfr : xcpOdtEntryFrames p odtSigs
      = (chunk7 (odtSigs.map (xcpDescr p.BYTE_ORDER))).map mkWdmFrame := by
    rw [xcpOdtEntryFrames, if_pos (by simp [h64])]
    exact wdmGo_eq_chunk p.BYTE_ORDER odtSigs [] (by simp) (by simp)
  refine ⟨hfr, chunk7_flatten _, ?_, ?_⟩
  · rw [hfr]
    intro hempty
    have hflat := chunk7_flatten (odtSigs.map (xcpDescr p.BYTE_ORDER))
    rw [List.map_eq_nil_iff] at hempty
    rw [hempty] at hflat
    cases odtSigs with
    | nil => exact hne rfl
    | cons a as => simp at hflat
  · intro c hc
    obtain ⟨⟨h1, h7⟩, hmem⟩ := chunk7_mem _ c hc
    have h8 : ∀ e ∈ c, e.length = 8 := fun e he => hall e (hmem e he)
    obtain ⟨hl, hg0, hg1, hseg⟩ := mkWdmFrame_facts c h7 h8
    exact ⟨⟨h1, h7⟩, hl, hg0, hg1, hseg⟩

/-- Witness for C5: eight 2-byte entries in one ODT under CAN-FD parameters
(two frames, 7 + 1 descriptors). -/
theorem c5_wdm_batching_witness :
    xcpOdtEntryFrames fdParams wdmOdt
        = (chunk7 (wdmOdt.map (xcpDescr fdParams.BYTE_ORDER))).map mkWdmFrame
    ∧ (chunk7 (wdmOdt.map (xcpDescr fdParams.BYTE_ORDER))).flatten
        = wdmOdt.map (xcpDescr fdParams.BYTE_ORDER)
    ∧ xcpOdtEntryFrames fdParams wdmOdt ≠ []
    ∧ ∀ c ∈ chunk7 (wdmOdt.map (xcpDescr fdParams.BYTE_ORDER)),
        (1 ≤ c.length ∧ c.length ≤ 7)
        ∧ (mkWdmFrame c).payload.length = 64
        ∧ (mkWdmFrame c).payload.get? 0 = some 0xC7
        ∧ (mkWdmFrame c).payload.get? 1 = some c.length
        ∧ ((mkWdmFrame c).payload.drop 2).take (8 * c.length) = c.flatten :=
  c5_wdm_batching fdParams (by decide) wdmOdt (by decide)

/-! ### The enumeration order of `sorted(set(...))` on formatted id strings

`create_dbc` and the frame builders sort the `0x%04X` / `0x%02X` id strings
lexicographically. The lemmas below prove that on values that fit the field
width (`< 16 ^ w`) this string order coincides with numeric order, so
`sortedDedupFmt w` equals the numeric `sortNat ∘ firstSeen` there — and only
there: `c1_counterexample` exhibits the divergence at ODT id `0x100`. -/

theorem natToHexUpperAux_fuel : ∀ (f1 f2 n : Nat), 0 < f1 → 0 < f2 →
    n < 16 ^ f1 → n < 16 ^ f2 → natToHexUpperAux f1 n = natToHexUpperAux f2 n := by
  intro f1
  induction f1 with
  | zero => intro f2 n h1; omega
  | succ f1 ih =>
    intro f2 n _ h2 hb1 hb2
    cases f2 with
    | zero => omega
    | succ f2 =>
      simp only [natToHexUpperAux]
      by_cases hn : n < 16
      · rw [if_pos hn, if_pos hn]
      · rw [if_neg hn, if_neg hn]
        have hp1 : 0 < f1 := by
          by_contra h
          have hf : f1 = 0 := by omega
          subst hf
          rw [pow_one] at hb1
          omega
        have hp2 : 0 < f2 := by
          by_contra h
          have hf : f2 = 0 := by omega
          subst hf
          rw [pow_one] at hb2
          omega
        have hd1 : n / 16 < 16 ^ f1 := by
          rw [Nat.div_lt_iff_lt_mul (by norm_num)]
          rw [pow_succ] at hb1
          omega
        have hd2 : n / 16 < 16 ^ f2 := by
          rw [Nat.div_lt_iff_lt_mul (by norm_num)]
          rw [pow_succ] at hb2
          omega
        rw [ih f2 (n / 16) hp1 hp2 hd1 hd2]

theorem natToHexUpper_eq (n : Nat) :
    natToHexUpper n = if n < 16 then [hexDigitChar n]
      else natToHexUpper (n / 16) ++ [hexDigitChar (n % 16)] := by
  have h1 : natToHexUpper n
      = if n < 16 then [hexDigitChar n]
        else natToHexUpperAux n (n / 16) ++ [hexDigitChar (n % 16)] := rfl
  rw [h1]
  by_cases hn : n < 16
  · rw [if_pos hn, if_pos hn]
  · rw [if_neg hn, if_neg hn]
    show natToHexUpperAux n (n / 16) ++ [hexDigitChar (n % 16)]
        = natToHexUpperAux (n / 16 + 1) (n / 16) ++ [hexDigitChar (n % 16)]
    congr 1
    apply natToHexUpperAux_fuel
    · omega
    · omega
    · have h1 : n / 16 < n := Nat.div_lt_self (by omega) (by norm_num)
      have h2 : n < 16 ^ n := Nat.lt_pow_self (by norm_num) n
      omega
    · have h1 : n / 16 < 16 ^ (n / 16) := Nat.lt_pow_self (by norm_num) _
      omega

theorem natToHexUpper_length_le : ∀ (w n : Nat), 0 < w → n < 16 ^ w →
    (natToHexUpper n).length ≤ w := by
  intro w
  induction w with
  | zero => intro n h; omega
  | succ w ih =>
    intro n _ hb
    rw [natToHexUpper_eq]
    by_cases hn : n < 16
    · rw [if_pos hn]; simp
    · rw [if_neg hn]
      have hp : 0 < w := by
        by_contra h
        have hw : w = 0 := by omega
        subst hw
        rw [pow_one] at hb
        omega
      have hd : n / 16 < 16 ^ w := by
        rw [Nat.div_lt_iff_lt_mul (by norm_num)]
        rw [pow_succ] at hb
        omega
      have hlen := ih (n / 16) hp hd
      simp only [List.length_append, List.length_cons, List.length_nil]
      omega

theorem digitsW_small : ∀ (w n : Nat), n < 16 → 0 < w →
    digitsW w n = List.replicate (w - 1) '0' ++ [hexDigitChar n] := by
  intro w
  induction w with
  | zero => intro n _ h; omega
  | succ w ih =>
    intro n hn _
    cases w with
    | zero => simp [digitsW]
    | succ v =>
      show hexDigitChar (n / 16 ^ (v + 1)) :: digitsW (v + 1) (n % 16 ^ (v + 1))
          = List.replicate (v + 1 + 1 - 1) '0' ++ [hexDigitChar n]
      have h16 : (16 : Nat) ≤ 16 ^ (v + 1) := by
        calc (16 : Nat) = 16 ^ 1 := (pow_one 16).symm
        _ ≤ 16 ^ (v + 1) := Nat.pow_le_pow_right (by norm_num) (by omega)
      rw [Nat.div_eq_of_lt (by omega), Nat.mod_eq_of_lt (by omega)]
      rw [ih n hn (by omega)]
      have hzero : hexDigitChar 0 = '0' := by decide
      rw [hzero]
      rfl

theorem digitsW_unfold_lsb : ∀ (w n : Nat), n < 16 ^ (w + 1) →
    digitsW (w + 1) n = digitsW w (n / 16) ++ [hexDigitChar (n % 16)] := by
  intro w
  induction w with
  | zero =>
    intro n hn
    have hn16 : n < 16 := by
      rw [pow_one] at hn
      exact hn
    simp only [digitsW, pow_zero, Nat.div_one, List.nil_append]
    rw [Nat.mod_eq_of_lt hn16]
  | succ w ih =>
    intro n _
    show hexDigitChar (n / 16 ^ (w + 1)) :: digitsW (w + 1) (n % 16 ^ (w + 1))
        = (hexDigitChar (n / 16 / 16 ^ w) :: digitsW w (n / 16 % 16 ^ w))
            ++ [hexDigitChar (n % 16)]
    have hdd : n / 16 / 16 ^ w = n / 16 ^ (w + 1) := by
      rw [Nat.div_div_eq_div_mul, pow_succ']
    have hP : (16 : Nat) ^ (w + 1) = 16 * 16 ^ w := pow_succ' 16 w
    have hmd : n % 16 ^ (w + 1) / 16 = n / 16 % 16 ^ w := by
      rw [hP, Nat.mod_mul_right_div_self]
    have hmm : n % 16 ^ (w + 1) % 16 = n % 16 :=
      Nat.mod_mod_of_dvd n (dvd_pow_self 16 (Nat.succ_ne_zero w))
    have hmlt : n % 16 ^ (w + 1) < 16 ^ (w + 1) := Nat.mod_lt _ (Nat.pow_pos (by norm_num))
    rw [List.cons_append, hdd, ih (n % 16 ^ (w + 1)) hmlt, hmd, hmm]

theorem padded_eq_digitsW : ∀ (n w : Nat), 0 < w → n < 16 ^ w →
    List.replicate (w - (natToHexUpper n).length) '0' ++ natToHexUpper n = digitsW w n := by
  intro n
  induction n using Nat.strong_induction_on with
  | _ n ih =>
    intro w hw hb
    rw [natToHexUpper_eq]
    by_cases hn : n < 16
    · rw [if_pos hn]
      simp only [List.length_cons, List.length_nil, Nat.zero_add]
      exact (digitsW_small w n hn hw).symm
    · rw [if_neg hn]
      cases w with
      | zero => omega
      | succ v =>
        have hv : 0 < v := by
          by_contra h
          have hw0 : v = 0 := by omega
          subst hw0
          rw [pow_one] at hb
          omega
        have hd16 : n / 16 < 16 ^ v := by
          rw [Nat.div_lt_iff_lt_mul (by norm_num)]
          rw [pow_succ] at hb
          omega
        have hrec := ih (n / 16) (Nat.div_lt_self (by omega) (by norm_num)) v hv hd16
        rw [digitsW_unfold_lsb v n hb, ← hrec]
        simp only [List.length_append, List.length_cons, List.length_nil, Nat.zero_add,
          List.append_assoc]
        have harith : v + 1 - ((natToHexUpper (n / 16)).length + 1)
            = v - (natToHexUpper (n / 16)).length := by omega
        rw [harith]

theorem pyHexFmt_toList (w n : Nat) :
    (pyHexFmt w n).toList
      = '0' :: 'x' :: (List.replicate (w - (natToHexUpper n).length) '0'
          ++ natToHexUpper n) := rfl

theorem pyHexFmt_toList_digits (w n : Nat) (hw : 0 < w) (hb : n < 16 ^ w) :
    (pyHexFmt w n).toList = '0' :: 'x' :: digitsW w n := by
  rw [pyHexFmt_toList, padded_eq_digitsW n w hw hb]

theorem charListLe_cons_same (c : Char) (cs ds : List Char) :
    charListLe (c :: cs) (c :: ds) = charListLe cs ds := by
  simp only [charListLe]
  rw [if_neg (lt_irrefl c.toNat), if_neg (lt_irrefl c.toNat)]

theorem hexDigitChar_toNat_lt : ∀ x < 16, ∀ y < 16,
    ((hexDigitChar x).toNat < (hexDigitChar y).toNat ↔ x < y) := by decide

theorem charListLe_digitsW : ∀ (w a b : Nat), a < 16 ^ w → b < 16 ^ w →
    (charListLe (digitsW w a) (digitsW w b) = true ↔ a ≤ b) := by
  intro w
  induction w with
  | zero =>
    intro a b ha hb
    rw [pow_zero] at ha hb
    have ha0 : a = 0 := by omega
    have hb0 : b = 0 := by omega
    subst ha0
    subst hb0
    simp [digitsW, charListLe]
  | succ w ih =>
    intro a b ha hb
    have hP : 0 < (16 : Nat) ^ w := Nat.pow_pos (by norm_num)
    have hqa : a / 16 ^ w < 16 := by
      rw [Nat.div_lt_iff_lt_mul hP]
      rw [pow_succ] at ha
      omega
    have hqb : b / 16 ^ w < 16 := by
      rw [Nat.div_lt_iff_lt_mul hP]
      rw [pow_succ] at hb
      omega
    have hda : 16 ^ w * (a / 16 ^ w) + a % 16 ^ w = a := Nat.div_add_mod a (16 ^ w)
    have hdb : 16 ^ w * (b / 16 ^ w) + b % 16 ^ w = b := Nat.div_add_mod b (16 ^ w)
    have hma : a % 16 ^ w < 16 ^ w := Nat.mod_lt _ hP
    have hmb : b % 16 ^ w < 16 ^ w := Nat.mod_lt _ hP
    simp only [digitsW, charListLe]
    rcases Nat.lt_trichotomy (a / 16 ^ w) (b / 16 ^ w) with hlt | heq | hgt
    · rw [if_pos ((hexDigitChar_toNat_lt _ hqa _ hqb).mpr hlt)]
      have hmul : 16 ^ w * (a / 16 ^ w + 1) ≤ 16 ^ w * (b / 16 ^ w) :=
        Nat.mul_le_mul_left _ hlt
      rw [Nat.mul_succ] at hmul
      exact iff_of_true rfl (by omega)
    · rw [heq]
      rw [if_neg (lt_irrefl _), if_neg (lt_irrefl _)]
      rw [ih (a % 16 ^ w) (b % 16 ^ w) hma hmb]
      have hXY : 16 ^ w * (a / 16 ^ w) = 16 ^ w * (b / 16 ^ w) := by rw [heq]
      omega
    · rw [if_neg (fun hc => by
          rw [hexDigitChar_toNat_lt _ hqa _ hqb] at hc
          omega)]
      rw [if_pos ((hexDigitChar_toNat_lt _ hqb _ hqa).mpr hgt)]
      have hmul : 16 ^ w * (b / 16 ^ w + 1) ≤ 16 ^ w * (a / 16 ^ w) :=
        Nat.mul_le_mul_left _ hgt
      rw [Nat.mul_succ] at hmul
      exact iff_of_false (by simp) (by omega)

theorem hexLeW_iff (w a b : Nat) (hw : 0 < w) (ha : a < 16 ^ w) (hb : b < 16 ^ w) :
    (hexLeW w a b = true ↔ a ≤ b) := by
  rw [hexLeW, pyHexFmt_toList_digits w a hw ha, pyHexFmt_toList_digits w b hw hb,
    charListLe_cons_same, charListLe_cons_same]
  exact charListLe_digitsW w a b ha hb

theorem insertSortedW_eq (w x : Nat) (hw : 0 < w) (hx : x < 16 ^ w) :
    ∀ ys : List Nat, (∀ y ∈ ys, y < 16 ^ w) → insertSortedW w x ys = insertSorted x ys := by
  intro ys
  induction ys with
  | nil => intro h; rfl
  | cons y ys ih =>
    intro hys
    have hy : y < 16 ^ w := hys y (List.mem_cons_self y ys)
    simp only [insertSortedW, insertSorted]
    by_cases hxy : x ≤ y
    · rw [if_pos ((hexLeW_iff w x y hw hx hy).mpr hxy), if_pos hxy]
    · rw [if_neg (fun hc => hxy ((hexLeW_iff w x y hw hx hy).mp hc)),
        if_neg hxy, ih (fun z hz => hys z (List.mem_cons_of_mem y hz))]

theorem mem_insertSorted (x z : Nat) : ∀ ys : List Nat,
    (z ∈ insertSorted x ys ↔ z = x ∨ z ∈ ys) := by
  intro ys
  induction ys with
  | nil => simp [insertSorted]
  | cons y ys ih =>
    simp only [insertSorted]
    by_cases hxy : x ≤ y
    · rw [if_pos hxy]
      simp [List.mem_cons]
    · rw [if_neg hxy]
      simp only [List.mem_cons, ih]
      tauto

theorem mem_foldr_insertSorted (z : Nat) : ∀ l : List Nat,
    (z ∈ l.foldr insertSorted [] ↔ z ∈ l) := by
  intro l
  induction l with
  | nil => simp
  | cons x l ih =>
    simp only [List.foldr_cons, mem_insertSorted, ih, List.mem_cons]

theorem foldr_insertSortedW_eq (w : Nat) (hw : 0 < w) :
    ∀ m : List Nat, (∀ x ∈ m, x < 16 ^ w) →
      m.foldr (insertSortedW w) [] = m.foldr insertSorted [] := by
  intro m
  induction m with
  | nil => intro h; rfl
  | cons x m ih =>
    intro hm
    simp only [List.foldr_cons]
    rw [ih (fun z hz => hm z (List.mem_cons_of_mem x hz))]
    exact insertSortedW_eq w x hw (hm x (List.mem_cons_self x m)) _
      (fun y hy => hm y (List.mem_cons_of_mem x ((mem_foldr_insertSorted y m).mp hy)))

theorem sortedDedupFmt_eq_sortNat (w : Nat) (hw : 0 < w) (l : List Nat)
    (hl : ∀ x ∈ l, x < 16 ^ w) :
    sortedDedupFmt w l = sortNat (firstSeen l) := by
  show (firstSeen l).foldr (insertSortedW w) [] = (firstSeen l).foldr insertSorted []
  exact foldr_insertSortedW_eq w hw (firstSeen l)
    (fun x hx => hl x (mem_firstSeen.mp hx))

/-! ### Claim theorems about the decode table (`create_dbc`) -/

theorem dbcRowsOdt_mux :
    ∀ (bo : ByteOrder) (pid b : Nat) (l : List GroupedSignal) (r : DecodeRow),
      r ∈ dbcRowsOdt bo pid b l → r.mux = pid := by
  intro bo pid b l
  induction l generalizing b with
  | nil => intro r hr; simp [dbcRowsOdt] at hr
  | cons g rest ih =>
    intro r hr
    simp only [dbcRowsOdt] at hr
    rcases List.mem_cons.mp hr with rfl | hr
    · rfl
    · exact ih _ r hr

theorem dbcOdts_eq (bo : ByteOrder) (gs : List GroupedSignal) (d : Nat) :
    ∀ (os : List Nat) (pid : Nat),
      dbcOdts bo gs d pid os
        = (((os.enumFrom pid).map (fun ko =>
              dbcRowsOdt bo ko.1 8 (odtSigsOf gs d ko.2))).flatten,
           pid + os.length) := by
  intro os
  induction os with
  | nil => intro pid; simp [dbcOdts]
  | cons o os ih =>
    intro pid
    simp only [dbcOdts, ih, List.enumFrom_cons, List.map_cons, List.flatten_cons,
      List.length_cons]
    have harith : pid + 1 + os.length = pid + (os.length + 1) := by omega
    rw [harith]

theorem enumFrom_pair_map (bo : ByteOrder) (gs : List GroupedSignal) (d : Nat) :
    ∀ (os : List Nat) (n : Nat),
      ((os.map (fun o => (d, o))).enumFrom n).map
          (fun ko => dbcRowsOdt bo ko.1 8 (odtSigsOf gs ko.2.1 ko.2.2))
        = (os.enumFrom n).map (fun ko => dbcRowsOdt bo ko.1 8 (odtSigsOf gs d ko.2)) := by
  intro os
  induction os with
  | nil => intro n; rfl
  | cons o os ih =>
    intro n
    simp only [List.map_cons, List.enumFrom_cons, ih]

theorem enumFrom_rows_shift (bo : ByteOrder) (S : Nat → List GroupedSignal) :
    ∀ (os : List Nat) (n m : Nat),
      (os.enumFrom (n + m)).map (fun ko => dbcRowsOdt bo ko.1 8 (S ko.2))
        = (os.enumFrom m).map (fun ko => dbcRowsOdt bo (n + ko.1) 8 (S ko.2)) := by
  intro os
  induction os with
  | nil => intro n m; rfl
  | cons o os ih =>
    intro n m
    simp only [List.enumFrom_cons, List.map_cons]
    have harith : n + m + 1 = n + (m + 1) := by omega
    rw [harith, ih]

theorem dbcDaqs_xcp_eq (p : A2LParams) (gs : List GroupedSignal) :
    ∀ (ds : List Nat) (pid : Nat),
      dbcDaqs p .xcp gs pid ds
        = ((((ds.map (fun d => (odtIdsOf gs d).map (fun o => (d, o)))).flatten).enumFrom
              pid).map
            (fun ko => dbcRowsOdt p.BYTE_ORDER ko.1 8 (odtSigsOf gs ko.2.1 ko.2.2))).flatten := by
  intro ds
  induction ds with
  | nil => intro pid; simp [dbcDaqs]
  | cons d ds ih =>
    intro pid
    simp only [dbcDaqs]
    rw [if_neg (fun h => Protocol.noConfusion h)]
    rw [dbcOdts_eq, ih]
    simp only [List.map_cons, List.flatten_cons, List.enumFrom_append, List.map_append,
      List.flatten_append, enumFrom_pair_map, List.length_map]

theorem dbcDaqs_ccp_eq (p : A2LParams) (gs : List GroupedSignal) :
    ∀ (ds : List Nat) (pid : Nat),
      (∀ d ∈ ds, ∃ e, p.DAQ_LISTS.find? (fun m => parseHex m.Id == some d) = some e
          ∧ (parseHex e.FirstPID).isSome) →
      dbcDaqs p .ccp gs pid ds
        = (ds.map (fun d =>
            (((odtIdsOf gs d).enum).map (fun jo =>
              dbcRowsOdt p.BYTE_ORDER (firstPidOf p 0 d + jo.1) 8
                (odtSigsOf gs d jo.2))).flatten)).flatten := by
  intro ds
  induction ds with
  | nil => intro pid _; simp [dbcDaqs]
  | cons d ds ih =>
    intro pid hmeta
    obtain ⟨e, hfind, hpid⟩ := hmeta d (List.mem_cons_self _ _)
    simp only [dbcDaqs, if_true]
    have hfp : firstPidOf p pid d = firstPidOf p 0 d := by
      simp only [firstPidOf, hfind]
    rw [hfp, dbcOdts_eq, ih _ (fun d2 hd2 => hmeta d2 (List.mem_cons_of_mem _ hd2))]
    rw [List.map_cons, List.flatten_cons]
    congr 1
    have := enumFrom_rows_shift p.BYTE_ORDER (odtSigsOf gs d) (odtIdsOf gs d)
      (firstPidOf p 0 d) 0
    rw [Nat.add_zero] at this
    rw [this, List.enum_eq_enumFrom]

/-- C1 counterexample: the claim's "ascending numeric (DaqList, Odt) order
with multiplexor values increasing by exactly 1" fails, because
`create_dbc` sorts the FORMATTED id strings lexicographically. On a DAQ
list with ODT ids 16, 17 and 256 the strings are `"0x10" < "0x100" <
"0x11"`, so the ODTs are enumerated 16, 256, 17 and the rows get
multiplexors 0, 1, 2 in that order (the rows are identified by their bit
lengths: 8, 32 and 16 for the signals of ODTs 16, 256 and 17) — in
ascending numeric Odt order the multiplexors read 0, 2, 1, not step-1
increasing. ODT id 256 is reachable
from `group_signals`: 257 four-byte signals on one channel pack into ODTs
0 through 256 (at `max_payload = 7` each signal opens its own ODT), and on
that very grouping the enumeration places 256 right after 16. -/
theorem c1_counterexample :
    odtIdsOf wideOdtGs 0 = [16, 256, 17]
    ∧ sortNat (firstSeen (wideOdtGs.map (fun g => g.odt))) = [16, 17, 256]
    ∧ odtIdsOf wideOdtGs 0
        ≠ sortNat (firstSeen ((wideOdtGs.filter (fun g => g.daq == 0)).map (fun g => g.odt)))
    ∧ (pyHexFmt 2 16, pyHexFmt 2 256, pyHexFmt 2 17) = ("0x10", "0x100", "0x11")
    ∧ (create_dbc_rows wideOdtGs exParams .xcp).map (fun r => (r.mux, r.bitLength))
        = [(0, 8), (1, 32), (2, 16)]
    ∧ group_signals wideOdtSigs exParams .xcp = .ok (groupedOf wideOdtSigs exParams)
    ∧ ((groupedOf wideOdtSigs exParams).filter (fun g => g.odt == 256)).length = 1
    ∧ (odtIdsOf (groupedOf wideOdtSigs exParams) 0).take 18
        = [0, 1, 2, 3, 4, 5, 6, 7, 8, 9, 10, 11, 12, 13, 14, 15, 16, 256] := by
  refine ⟨by decide, by decide, by decide, rfl, by decide, rfl, by decide, by decide⟩

/-- C1 (corrected): `create_dbc` assigns one multiplexor value per ODT
(every row of an ODT carries the PID of that ODT), and the ODTs are
enumerated per DAQ list in ascending lexicographic order of their
`0x%02X`-formatted id strings, the DAQ lists in ascending lexicographic
order of their `0x%04X` strings (the order Python's `sorted(set(...))`
puts the formatted strings in), with the PID counter starting at 0 and
incremented once per ODT for XCP, and restarted at each DAQ list's
declared (hex-parsed) `FirstPID` for CCP. Whenever every DAQ id is below
0x10000 and every ODT id below 0x100 — so all ids fit their format widths —
this enumeration coincides with ascending numeric (DaqList, Odt) order
(last two conjuncts), which is the only regime where the claim's original
step-1 numeric monotonicity holds (`c1_counterexample` refutes it at ODT
id 0x100). The CCP part assumes every used DAQ list has a metadata entry
with parsable `Id`/`FirstPID` (otherwise Python itself would raise or skip
the reset). -/
theorem c1_mux_consistency (gs : List GroupedSignal) (p : A2LParams)
    (hmeta : ∀ d ∈ daqIdsOf gs,
        ∃ e, p.DAQ_LISTS.find? (fun m => parseHex m.Id == some d) = some e
          ∧ (parseHex e.FirstPID).isSome) :
    (∀ (bo : ByteOrder) (pid b : Nat) (l : List GroupedSignal) (r : DecodeRow),
        r ∈ dbcRowsOdt bo pid b l → r.mux = pid)
    ∧ create_dbc_rows gs p .xcp
        = (((odtPairs gs).enum).map (fun ko =>
            dbcRowsOdt p.BYTE_ORDER ko.1 8 (odtSigsOf gs ko.2.1 ko.2.2))).flatten
    ∧ create_dbc_rows gs p .ccp
        = ((daqIdsOf gs).map (fun d =>
            (((odtIdsOf gs d).enum).map (fun jo =>
              dbcRowsOdt p.BYTE_ORDER (firstPidOf p 0 d + jo.1) 8
                (odtSigsOf gs d jo.2))).flatten)).flatten
    ∧ ((∀ g ∈ gs, g.daq < 65536) →
        daqIdsOf gs = sortNat (firstSeen (gs.map (fun g => g.daq))))
    ∧ (∀ d, (∀ g ∈ gs, g.odt < 256) →
        odtIdsOf gs d
          = sortNat (firstSeen ((gs.filter (fun g => g.daq == d)).map (fun g => g.odt)))) := by
  refine ⟨dbcRowsOdt_mux, ?_, ?_, ?_, ?_⟩
  · rw [create_dbc_rows, dbcDaqs_xcp_eq, odtPairs, List.enum_eq_enumFrom]
  · rw [create_dbc_rows, dbcDaqs_ccp_eq p gs (daqIdsOf gs) 0 hmeta]
  · intro h
    simp only [daqIdsOf]
    apply sortedDedupFmt_eq_sortNat 4 (by norm_num)
    intro x hx
    obtain ⟨g, hg, rfl⟩ := List.mem_map.mp hx
    have h4 : (16 : Nat) ^ 4 = 65536 := by norm_num
    rw [h4]
    exact h g hg
  · intro d h
    simp only [odtIdsOf]
    apply sortedDedupFmt_eq_sortNat 2 (by norm_num)
    intro x hx
    obtain ⟨g, hg, rfl⟩ := List.mem_map.mp hx
    have h2 : (16 : Nat) ^ 2 = 256 := by norm_num
    rw [h2]
    exact h g (List.mem_of_mem_filter hg)

/-- Witness for C1 at the two-channel grouping with first-PID metadata for
both DAQ lists. -/
theorem c1_mux_consistency_witness :
    (∀ (bo : ByteOrder) (pid b : Nat) (l : List GroupedSignal) (r : DecodeRow),
        r ∈ dbcRowsOdt bo pid b l → r.mux = pid)
    ∧ create_dbc_rows mixGrouped mixPidParams .xcp
        = (((odtPairs mixGrouped).enum).map (fun ko =>
            dbcRowsOdt mixPidParams.BYTE_ORDER ko.1 8
              (odtSigsOf mixGrouped ko.2.1 ko.2.2))).flatten
    ∧ create_dbc_rows mixGrouped mixPidParams .ccp
        = ((daqIdsOf mixGrouped).map (fun d =>
            (((odtIdsOf mixGrouped d).enum).map (fun jo =>
              dbcRowsOdt mixPidParams.BYTE_ORDER (firstPidOf mixPidParams 0 d + jo.1) 8
                (odtSigsOf mixGrouped d jo.2))).flatten)).flatten
    ∧ ((∀ g ∈ mixGrouped, g.daq < 65536) →
        daqIdsOf mixGrouped = sortNat (firstSeen (mixGrouped.map (fun g => g.daq))))
    ∧ (∀ d, (∀ g ∈ mixGrouped, g.odt < 256) →
        odtIdsOf mixGrouped d
          = sortNat (firstSeen ((mixGrouped.filter (fun g => g.daq == d)).map
              (fun g => g.odt)))) :=
  c1_mux_consistency mixGrouped mixPidParams
    (by
      intro d hd
      have hds : daqIdsOf mixGrouped = [0, 1] := by decide
      rw [hds] at hd
      rcases List.mem_cons.mp hd with rfl | hd
      · exact ⟨⟨"0x0", "0x04", "0x08"⟩, by decide, by decide⟩
      · rcases List.mem_cons.mp hd with rfl | hd
        · exact ⟨⟨"0x1", "0x02", "0x20"⟩, by decide, by decide⟩
        · simp at hd)

/-- C3: the end-to-end classic-CAN XCP example. One event channel (id 3),
two unsigned 2-byte signals, `max_dto = 8`: grouping puts both in
DaqList 0 / Odt 0 as entries 0 and 1; the encoder emits exactly one
`SET_DAQ_PTR` (0xE2) followed by two `WRITE_DAQ` (0xE1) frames and no
`WRITE_DAQ_MULTIPLE` (0xC7), since the effective `max_cto` is 8; the decode
rows both have multiplexor value 0 and `bit_length` 16, with start bits
8 and 24 little-endian or 15 and 31 big-endian. -/
theorem c3_end_to_end :
    group_signals [exSig1, exSig2] exParams .xcp
        = .ok [⟨exSig1, 0, 0, 0⟩, ⟨exSig2, 0, 0, 1⟩]
    ∧ (create_daq_frames_xcp exGrouped exParams).map (fun f => f.payload.head?)
        = [some 0xFF, some 0xFD, some 0xD6, some 0xD5, some 0xD4, some 0xD3,
           some 0xE2, some 0xE1, some 0xE1, some 0xE0, some 0xDE, some 0xDD]
    ∧ ((create_daq_frames_xcp exGrouped exParams).filter
        (fun f => f.payload.head? == some 0xC7)).length = 0
    ∧ (create_dbc_rows exGrouped exParams .xcp).map
        (fun r => (r.mux, r.startBit, r.bitLength)) = [(0, 8, 16), (0, 24, 16)]
    ∧ (create_dbc_rows exGrouped exParamsBig .xcp).map
        (fun r => (r.mux, r.startBit, r.bitLength)) = [(0, 15, 16), (0, 31, 16)]
    ∧ min exParams.MAX_CTO 64 = 8 := by
  exact ⟨rfl, by decide, by decide, by decide, by decide, by decide⟩

/-! ### Claim theorem about the transmit list -/

theorem txGo_length (sp ffd brs idf : Nat) (idStr : String) :
    ∀ (fs : List Frame) (delay : Nat),
      (txGo sp ffd brs idf idStr delay fs).length = fs.length := by
  intro fs
  induction fs with
  | nil => intro delay; rfl
  | cons f fs ih => intro delay; simp [txGo, ih]

theorem txGo_get? (sp ffd brs idf : Nat) (idStr : String) :
    ∀ (fs : List Frame) (delay i : Nat),
      (txGo sp ffd brs idf idStr delay fs).get? i
        = (fs.get? i).map (fun f =>
            ⟨f.name, 1, idf, (if f.payload.length > 8 then 1 else ffd), brs, 1, 0,
             delay + i * sp, idStr, f.payload⟩) := by
  intro fs
  induction fs with
  | nil => intro delay i; simp [txGo]
  | cons f fs ih =>
    intro delay i
    cases i with
    | zero => simp [txGo]
    | succ j =>
      simp only [txGo, List.get?]
      rw [ih (delay + sp) j]
      simp only [show ∀ k : Nat, delay + sp + k * sp = delay + (k + 1) * sp from
        fun k => by ring]

theorem txGo_props (sp ffd brs idf : Nat) (idStr : String) (frames : List Frame)
    (sd : Nat) :
    (txGo sp ffd brs idf idStr sd frames).length = frames.length
    ∧ ∀ i : Fin (txGo sp ffd brs idf idStr sd frames).length,
        ((txGo sp ffd brs idf idStr sd frames).get i).delay = sd + i.val * sp
        ∧ ((txGo sp ffd brs idf idStr sd frames).get i).id = idStr
        ∧ ((txGo sp ffd brs idf idStr sd frames).get i).id_format = idf := by
  refine ⟨txGo_length sp ffd brs idf idStr frames sd, ?_⟩
  rintro ⟨iv, hlt⟩
  have hi : iv < frames.length := by
    rw [← txGo_length sp ffd brs idf idStr frames sd]
    exact hlt
  have hq := txGo_get? sp ffd brs idf idStr frames sd iv
  rw [List.get?_eq_get hlt, List.get?_eq_get hi] at hq
  simp only [Option.map_some'] at hq
  injection hq with hEq
  rw [hEq]
  exact ⟨rfl, rfl, rfl⟩

theorem ctlBranchProps (frames : List Frame) (s : TxSettings) (ffd brs idf : Nat)
    (idStr : String) :
    ((∃ l, (if (txGo s.frame_spacing ffd brs idf idStr s.start_delay frames).length
              > s.max_frames
            then (Except.error (TxError.tooManyFrames
                (txGo s.frame_spacing ffd brs idf idStr s.start_delay frames).length
                s.max_frames) : Except TxError (List TransmitEntry))
            else if (frames.map (fun f => f.payload.length)).sum > s.max_data_bytes
            then Except.error (TxError.tooManyBytes
                (frames.map (fun f => f.payload.length)).sum s.max_data_bytes)
            else Except.ok (txGo s.frame_spacing ffd brs idf idStr s.start_delay frames))
          = .ok l)
        ↔ (frames.length ≤ s.max_frames
            ∧ (frames.map (fun f => f.payload.length)).sum ≤ s.max_data_bytes))
    ∧ ∀ l, (if (txGo s.frame_spacing ffd brs idf idStr s.start_delay frames).length
              > s.max_frames
            then (Except.error (TxError.tooManyFrames
                (txGo s.frame_spacing ffd brs idf idStr s.start_delay frames).length
                s.max_frames) : Except TxError (List TransmitEntry))
            else if (frames.map (fun f => f.payload.length)).sum > s.max_data_bytes
            then Except.error (TxError.tooManyBytes
                (frames.map (fun f => f.payload.length)).sum s.max_data_bytes)
            else Except.ok (txGo s.frame_spacing ffd brs idf idStr s.start_delay frames))
          = .ok l →
        l.length = frames.length
        ∧ (∀ i : Fin l.length,
            (l.get i).delay = s.start_delay + i.val * s.frame_spacing
            ∧ (l.get i).id = idStr
            ∧ (l.get i).id_format = idf)
        ∧ (0 < s.frame_spacing → ∀ i j : Fin l.length, i.val < j.val →
            (l.get i).delay < (l.get j).delay) := by
  split
  · rename_i h1
    rw [txGo_length] at h1
    constructor
    · constructor
      · rintro ⟨l, hl⟩
        exact Except.noConfusion hl
      · rintro ⟨hA, _⟩
        omega
    · intro l hl
      exact Except.noConfusion hl
  · rename_i h1
    rw [txGo_length] at h1
    split
    · rename_i h2
      constructor
      · constructor
        · rintro ⟨l, hl⟩
          exact Except.noConfusion hl
        · rintro ⟨_, hB⟩
          omega
      · intro l hl
        exact Except.noConfusion hl
    · rename_i h2
      constructor
      · constructor
        · intro _
          exact ⟨by omega, by omega⟩
        · intro _
          exact ⟨_, rfl⟩
      · intro l hl
        injection hl with hL
        subst hL
        obtain ⟨hlen, hfields⟩ := txGo_props s.frame_spacing ffd brs idf idStr
          frames s.start_delay
        refine ⟨hlen, fun i => hfields i, fun hsp i j hij => ?_⟩
        obtain ⟨hdi, -, -⟩ := hfields i
        obtain ⟨hdj, -, -⟩ := hfields j
        rw [hdi, hdj]
        have hmul : i.val * s.frame_spacing < j.val * s.frame_spacing :=
          Nat.mul_lt_mul_of_pos_right hij hsp
        omega

/-- C6: `create_transmit_list` gives the i-th entry the delay
`start_delay + i * frame_spacing` (strictly increasing when the spacing is
positive), the shared master CAN id string and id-format flag, and fails
fatally -- before any output is written -- exactly when the frame count
exceeds `max_frames` or the total payload byte count exceeds
`max_data_bytes`. -/
theorem c6_transmit_list (frames : List Frame) (p : A2LParams) (s : TxSettings) :
    ((∃ l, create_transmit_list frames p s = .ok l)
        ↔ (frames.length ≤ s.max_frames
            ∧ (frames.map (fun f => f.payload.length)).sum ≤ s.max_data_bytes))
    ∧ ∀ l, create_transmit_list frames p s = .ok l →
        l.length = frames.length
        ∧ (∀ i : Fin l.length,
            (l.get i).delay = s.start_delay + i.val * s.frame_spacing
            ∧ (l.get i).id = masterIdStr p
            ∧ (l.get i).id_format = (if p.CAN_ID_MASTER_EXTENDED then 1 else 0))
        ∧ (0 < s.frame_spacing → ∀ i j : Fin l.length, i.val < j.val →
            (l.get i).delay < (l.get j).delay) := by
  simp only [create_transmit_list]
  split <;> exact ctlBranchProps frames s _ _ _ _

/-- Witness for C6 at the end-to-end example frames and the CANedge device
limits. -/
theorem c6_transmit_list_witness :
    ((∃ l, create_transmit_list (create_daq_frames_xcp exGrouped exParams) exParams
        exSettings = .ok l)
      ↔ ((create_daq_frames_xcp exGrouped exParams).length ≤ exSettings.max_frames
          ∧ ((create_daq_frames_xcp exGrouped exParams).map
              (fun f => f.payload.length)).sum ≤ exSettings.max_data_bytes))
    ∧ ∀ l, create_transmit_list (create_daq_frames_xcp exGrouped exParams) exParams
        exSettings = .ok l →
        l.length = (create_daq_frames_xcp exGrouped exParams).length
        ∧ (∀ i : Fin l.length,
            (l.get i).delay = exSettings.start_delay + i.val * exSettings.frame_spacing
            ∧ (l.get i).id = masterIdStr exParams
            ∧ (l.get i).id_format = (if exParams.CAN_ID_MASTER_EXTENDED then 1 else 0))
        ∧ (0 < exSettings.frame_spacing → ∀ i j : Fin l.length, i.val < j.val →
            (l.get i).delay < (l.get j).delay) :=
  c6_transmit_list (create_daq_frames_xcp exGrouped exParams) exParams exSettings

/-- Witness for C10 at a concrete mixed-channel input. -/
theorem c10_grouping_permutation_witness :
    (mixGrouped.map (fun g => g.sig)).Perm mixSigs
    ∧ ∀ d o, (mixGrouped.filter (fun g => g.daq == d && g.odt == o)).map (fun g => g.entry)
        = List.range ((mixGrouped.filter (fun g => g.daq == d && g.odt == o)).length) :=
  c10_grouping_permutation mixSigs exParams .xcp mixGrouped rfl

end CanedgeDaq
